import Mathlib

/-!
Verification of the layered configuration store and certificate view of
this repository.  The public Rust surface (`src/config.rs`, `src/cert.rs`)
is a thin binding over an external engine, so the aggregation semantics
(levels, precedence, snapshots, typed coercion, iteration) are embedded
from the specification, while the logic that is present in the Rust
sources (certificate casting, UTF-8 accessors of a `ConfigEntry`) is
embedded directly from that code.
-/

namespace Git2

/-- Modelled from the spec: `ConfigLevel`, "a total, ordered enumeration
(lowest→highest authority): SystemWide, ProgramData, Xdg, Global, Local,
App, Override" (spec §3).  The enumeration itself lives outside `src/`. -/
inductive ConfigLevel where
  | systemWide
  | programData
  | xdg
  | globalLevel
  | localLevel
  | app
  | overrideLevel
deriving DecidableEq

/-- Modelled from the spec: the authority rank of a level; levels listed
lowest→highest in spec §3. -/
def ConfigLevel.rank : ConfigLevel → Nat
  | .systemWide => 0
  | .programData => 1
  | .xdg => 2
  | .globalLevel => 3
  | .localLevel => 4
  | .app => 5
  | .overrideLevel => 6

/-- Modelled from the spec: the error taxonomy of §7. -/
inductive ConfigError where
  | notFound
  | typeMismatch
  | invalidEncoding
  | ioError
  | noWritableSource
deriving DecidableEq

/-- Modelled from the spec: a `Source` is a backing file bound to a level
owning an ordered `EntryTable` of (name, value) pairs (spec §2, §3).  The
table lives outside `src/`; values are kept as their raw text. -/
structure Source where
  level : ConfigLevel
  entries : List (String × String)
deriving DecidableEq

/-- Modelled from the spec: a `ConfigStore` is the ordered collection of
Sources, kept here in order of addition (spec §3).  It corresponds to the
`Config` struct of `src/config.rs`, whose state lives behind the binding. -/
structure Config where
  sources : List Source
deriving DecidableEq

/-- Modelled from the spec: lookup of a name inside one source's
`EntryTable`; insertion order is significant and the last write wins
within a source (spec §3). -/
def entryLookup (es : List (String × String)) (n : String) : Option String :=
  match es with
  | [] => none
  | e :: rest =>
    match entryLookup rest n with
    | some w => some w
    | none => if e.1 = n then some e.2 else none

/-- Modelled from the spec: one step of precedence resolution.  A source
that defines the name replaces the current best candidate exactly when its
level is at least as authoritative, so that among equal levels the
later-added source wins (spec §3). -/
def resolveStep (n : String) (best : Option (String × ConfigLevel))
    (s : Source) : Option (String × ConfigLevel) :=
  match entryLookup s.entries n with
  | none => best
  | some v =>
    match best with
    | none => some (v, s.level)
    | some (w, bl) =>
      if bl.rank ≤ s.level.rank then some (v, s.level) else some (w, bl)

/-- Modelled from the spec: resolution over a list of sources in addition
order, threading the best candidate. -/
def resolveAux (n : String) (best : Option (String × ConfigLevel)) :
    List Source → Option (String × ConfigLevel)
  | [] => best
  | s :: ss => resolveAux n (resolveStep n best s) ss

/-- Modelled from the spec: priority-ordered lookup — "a typed read call
walks Sources high-to-low priority …; the first hit wins", ties resolved
by "last-added source wins" (spec §2, §3). -/
def Config.getRaw (c : Config) (n : String) : Option (String × ConfigLevel) :=
  resolveAux n none c.sources

/-- Modelled from the spec: `get_bytes` of `src/config.rs` — the raw
winning value, `NotFound` when the name is absent everywhere (spec §4.1). -/
def Config.get_bytes (c : Config) (n : String) : Except ConfigError String :=
  match c.getRaw n with
  | none => .error .notFound
  | some (v, _) => .ok v

/-- Modelled from the spec: `get_str` of `src/config.rs`; values in this
model are already text, so it coincides with `get_bytes`. -/
def Config.get_str (c : Config) (n : String) : Except ConfigError String :=
  c.get_bytes n

/-- A resolved entry: name, raw value and originating level, as exposed by
`ConfigEntry` in `src/config.rs`. -/
structure ConfigEntry where
  name : String
  value : String
  level : ConfigLevel
deriving DecidableEq

/-- Modelled from the spec: `get_entry` — same resolution as `get`,
returning name, raw bytes and origin level without decoding (spec §4.1). -/
def Config.get_entry (c : Config) (n : String) : Except ConfigError ConfigEntry :=
  match c.getRaw n with
  | none => .error .notFound
  | some (v, l) => .ok ⟨n, v, l⟩

/-- ASCII lower-casing of one character, used for the case-insensitive
boolean tokens of spec §4.1. -/
def asciiLower (ch : Char) : Char :=
  if 'A' ≤ ch ∧ ch ≤ 'Z' then Char.ofNat (ch.toNat + 32) else ch

/-- ASCII lower-casing of a string. -/
def lowerStr (s : String) : String := ⟨s.data.map asciiLower⟩

/-- Modelled from the spec: "Boolean decoding accepts case-insensitive
tokens {true,yes,on,1} / {false,no,off,0}; anything else is TypeMismatch"
(spec §4.1). -/
def parseBool (s : String) : Option Bool :=
  let l := lowerStr s
  if l = "true" ∨ l = "yes" ∨ l = "on" ∨ l = "1" then some true
  else if l = "false" ∨ l = "no" ∨ l = "off" ∨ l = "0" then some false
  else none

/-- Modelled from the spec: `get_bool` of `src/config.rs` (spec §4.1). -/
def Config.get_bool (c : Config) (n : String) : Except ConfigError Bool :=
  match c.getRaw n with
  | none => .error .notFound
  | some (v, _) =>
    match parseBool v with
    | some b => .ok b
    | none => .error .typeMismatch

/-- Numeric value of a decimal digit character. -/
def digVal (ch : Char) : Nat := ch.toNat - 48

/-- Is the character a decimal digit `0`-`9`? -/
def isDigitChar (ch : Char) : Bool := '0' ≤ ch && ch ≤ '9'

/-- Modelled from the spec: base-10 reading of an all-digit character
sequence (spec §4.1, "Integer decoding accepts base-10 text"). -/
def parseNatDigits (l : List Char) : Option Nat :=
  if l ≠ [] ∧ l.all isDigitChar then
    some (l.foldl (fun a ch => a * 10 + digVal ch) 0)
  else none

/-- Modelled from the spec: base-10 reading of an optionally negated
integer literal (spec §4.1). -/
def parseIntText (s : String) : Option Int :=
  match s.data with
  | [] => none
  | ch :: rest =>
    if ch = '-' then (parseNatDigits rest).map (fun m => -(Int.ofNat m))
    else (parseNatDigits (ch :: rest)).map (fun m => Int.ofNat m)

/-- Modelled from the spec: `get_i32` of `src/config.rs` — "values out of
range for the target width are TypeMismatch, not silent truncation"
(spec §4.1). -/
def Config.get_i32 (c : Config) (n : String) : Except ConfigError Int :=
  match c.getRaw n with
  | none => .error .notFound
  | some (v, _) =>
    match parseIntText v with
    | none => .error .typeMismatch
    | some i =>
      if -2147483648 ≤ i ∧ i < 2147483648 then .ok i
      else .error .typeMismatch

/-- Modelled from the spec: `get_i64` of `src/config.rs` (spec §4.1). -/
def Config.get_i64 (c : Config) (n : String) : Except ConfigError Int :=
  match c.getRaw n with
  | none => .error .notFound
  | some (v, _) =>
    match parseIntText v with
    | none => .error .typeMismatch
    | some i =>
      if -9223372036854775808 ≤ i ∧ i < 9223372036854775808 then .ok i
      else .error .typeMismatch

/-- Modelled from the spec: selection of the write target, threading the
current index and the best (index, rank) candidate.  A source with a rank
at least as high as the candidate replaces it, so that among equal levels
the later-added source is chosen (spec §3). -/
def topIdxAux (idx : Nat) (best : Option (Nat × Nat)) :
    List Source → Option (Nat × Nat)
  | [] => best
  | s :: ss =>
    match best with
    | none => topIdxAux (idx + 1) (some (idx, s.level.rank)) ss
    | some (bi, br) =>
      if br ≤ s.level.rank then topIdxAux (idx + 1) (some (idx, s.level.rank)) ss
      else topIdxAux (idx + 1) (some (bi, br)) ss

/-- Modelled from the spec: index of "the single highest-priority Source
currently present in the store" (spec §3), `none` for an empty store. -/
def Config.topIdx (c : Config) : Option Nat :=
  (topIdxAux 0 none c.sources).map (fun p => p.1)

/-- Replace the first entry of the given name by the new pair, leaving
everything else in place. -/
def replaceFirstEntry : List (String × String) → String → String →
    List (String × String)
  | [], _, _ => []
  | e :: rest, n, v =>
    if e.1 = n then (n, v) :: rest else e :: replaceFirstEntry rest n v

/-- Modelled from the spec: a `set` on one source's table "appends if name
absent there, replaces the most recent matching entry if present"
(spec §4.1). -/
def setEntryTable (es : List (String × String)) (n v : String) :
    List (String × String) :=
  if es.any (fun e => e.1 = n) then
    (replaceFirstEntry es.reverse n v).reverse
  else es ++ [(n, v)]

/-- Modelled from the spec: write routing — encode, then write into the
highest-priority source; a store with zero sources fails all writes
(spec §3, §4.1, §7). -/
def Config.setRaw (c : Config) (n v : String) : Except ConfigError Config :=
  match c.topIdx with
  | none => .error .noWritableSource
  | some i =>
    match c.sources[i]? with
    | none => .error .noWritableSource
    | some s =>
      .ok ⟨c.sources.set i { s with entries := setEntryTable s.entries n v }⟩

/-- Little-endian decimal digits of a positive number, driven by fuel so
that the definition is structurally recursive. -/
def natRevDigits : Nat → Nat → List Char
  | 0, _ => []
  | _ + 1, 0 => []
  | fuel + 1, m + 1 =>
    Char.ofNat (48 + (m + 1) % 10) :: natRevDigits fuel ((m + 1) / 10)

/-- Decimal rendering of a natural number. -/
def serializeNat (m : Nat) : String :=
  if m = 0 then "0" else ⟨(natRevDigits m m).reverse⟩

/-- Modelled from the spec: the base-10 text encoding used by the integer
setters (spec §4.1, `set<T>` "encodes value"). -/
def serializeInt (i : Int) : String :=
  if i < 0 then "-" ++ serializeNat i.natAbs else serializeNat i.natAbs

/-- Modelled from the spec: the text encoding used by `set_bool`. -/
def serializeBool (b : Bool) : String := if b then "true" else "false"

/-- Modelled from the spec: `set_bool` of `src/config.rs`. -/
def Config.set_bool (c : Config) (n : String) (b : Bool) :
    Except ConfigError Config :=
  c.setRaw n (serializeBool b)

/-- Modelled from the spec: `set_i32` of `src/config.rs`. -/
def Config.set_i32 (c : Config) (n : String) (i : Int) :
    Except ConfigError Config :=
  c.setRaw n (serializeInt i)

/-- Modelled from the spec: `set_i64` of `src/config.rs`. -/
def Config.set_i64 (c : Config) (n : String) (i : Int) :
    Except ConfigError Config :=
  c.setRaw n (serializeInt i)

/-- Modelled from the spec: `set_str` of `src/config.rs`. -/
def Config.set_str (c : Config) (n v : String) : Except ConfigError Config :=
  c.setRaw n v

/-- Modelled from the spec: `remove` — "deletes all entries named `name`
from the highest-priority Source; fails with NotFound if absent there"
(spec §4.1); on a store with zero sources every write fails (spec §3). -/
def Config.remove (c : Config) (n : String) : Except ConfigError Config :=
  match c.topIdx with
  | none => .error .noWritableSource
  | some i =>
    match c.sources[i]? with
    | none => .error .noWritableSource
    | some s =>
      if s.entries.any (fun e => e.1 = n) then
        .ok ⟨c.sources.set i
          { s with entries := s.entries.filter (fun e => ¬(e.1 = n)) }⟩
      else .error .notFound

/-- Modelled from the spec: `open_level` — "a new ConfigStore containing
only a view scoped to Sources at exactly that level" (spec §4.1). -/
def Config.open_level (c : Config) (l : ConfigLevel) : Config :=
  ⟨c.sources.filter (fun s => s.level = l)⟩

/-- Modelled from the spec: every name defined by some source of the
store, without duplicates (spec §4.3, "every distinct name"). -/
def Config.names (c : Config) : List String :=
  (c.sources.flatMap (fun s => s.entries.map (fun e => e.1))).dedup

/-- Modelled from the spec: `snapshot` — "for every distinct name across
all Sources at snapshot time, exactly one (value, level) pair — the one a
`get` call would have returned at that instant" (spec §4.3). -/
def Config.snapshot (c : Config) : List (String × String × ConfigLevel) :=
  c.names.filterMap (fun n => (c.getRaw n).map (fun p => (n, p.1, p.2)))

/-- Reading a name from a snapshot table. -/
def snapshotFind (t : List (String × String × ConfigLevel)) (n : String) :
    Option (String × ConfigLevel) :=
  (t.find? (fun e => e.1 = n)).map (fun e => e.2)

/-- Modelled from the spec: the priority ordering in which `entries` walks
the sources — highest level first, equal levels visited with the
later-added source first, consistently with resolution (spec §3, §4.2).
The reversed addition order is sorted stably by descending rank. -/
def Config.prioritySources (c : Config) : List Source :=
  c.sources.reverse.insertionSort (fun a b => b.level.rank ≤ a.level.rank)

/-- Modelled from the spec: the full entry sequence of the store — sources
in priority order and, within each source, `EntryTable` insertion order
(spec §4.2). -/
def Config.allEntries (c : Config) : List ConfigEntry :=
  c.prioritySources.flatMap
    (fun s => s.entries.map (fun e => ⟨e.1, e.2, s.level⟩))

/-- Modelled from the spec: shell-style glob matching (spec glossary),
with `*` matching any sequence and `?` any single character; driven by
fuel so that the definition is structurally recursive. -/
def globMatchAux : Nat → List Char → List Char → Bool
  | 0, _, _ => false
  | _ + 1, [], [] => true
  | _ + 1, [], _ :: _ => false
  | fuel + 1, '*' :: ps, [] => globMatchAux fuel ps []
  | fuel + 1, '*' :: ps, ch :: cs =>
    globMatchAux fuel ps (ch :: cs) || globMatchAux fuel ('*' :: ps) cs
  | _ + 1, '?' :: _, [] => false
  | fuel + 1, '?' :: ps, _ :: cs => globMatchAux fuel ps cs
  | _ + 1, _ :: _, [] => false
  | fuel + 1, p :: ps, ch :: cs => (p = ch) && globMatchAux fuel ps cs

/-- Modelled from the spec: whether a name matches a glob pattern. -/
def globMatch (p s : String) : Bool :=
  globMatchAux (p.data.length + s.data.length + 1) p.data s.data

/-- Modelled from the spec: the sequence produced by `entries(glob)` —
all entries in priority-then-insertion order, filtered by the glob when
one is given (spec §4.1, §4.2). -/
def Config.entriesList (c : Config) (glob : Option String) : List ConfigEntry :=
  match glob with
  | none => c.allEntries
  | some g => c.allEntries.filter (fun e => globMatch g e.name)

/-- The state of a `ConfigEntries` iterator of `src/config.rs`: the
entries not yet yielded. -/
structure ConfigEntries where
  remaining : List ConfigEntry
deriving DecidableEq

/-- Modelled from the spec: `entries` returns a fresh iterator over the
glob-filtered sequence (spec §4.1). -/
def Config.entries (c : Config) (glob : Option String) : ConfigEntries :=
  ⟨c.entriesList glob⟩

/-- The `next` step of the iterator (`Iterator for &ConfigEntries` in
`src/config.rs`): yield the next entry and the advanced state, or `none`
once exhausted. -/
def ConfigEntries.next : ConfigEntries → Option (ConfigEntry × ConfigEntries)
  | ⟨[]⟩ => none
  | ⟨e :: rest⟩ => some (e, ⟨rest⟩)

/-- Repeatedly calling `next`, collecting everything the iterator yields;
fuel-driven. -/
def drainAux : Nat → ConfigEntries → List ConfigEntry
  | 0, _ => []
  | fuel + 1, it =>
    match it.next with
    | none => []
    | some (e, it2) => e :: drainAux fuel it2

/-- The complete traversal of an iterator. -/
def ConfigEntries.drain (it : ConfigEntries) : List ConfigEntry :=
  drainAux it.remaining.length it

/-- The certificate discriminant `git_cert_t` consulted by `Cert::cast`
in `src/cert.rs`. -/
inductive CertKind where
  | certNone
  | x509
  | hostkeyLibssh2
  | strarray
deriving DecidableEq

/-- The raw certificate data behind a `Cert`: the discriminant stored in
the underlying handle (`(*self.raw).cert_type` in `src/cert.rs`). -/
structure RawCert where
  cert_type : CertKind
deriving DecidableEq

/-- A certificate view, as in `src/cert.rs`. -/
structure Cert where
  raw : RawCert
deriving DecidableEq

/-- The hostkey view produced by a successful cast (`CertHostkey` in
`src/cert.rs`); it shares the underlying raw data. -/
structure CertHostkey where
  raw : RawCert
deriving DecidableEq

/-- The X.509 view produced by a successful cast (`CertX509` in
`src/cert.rs`); it shares the underlying raw data. -/
structure CertX509 where
  raw : RawCert
deriving DecidableEq

/-- From `Cert::cast` in `src/cert.rs`: reinterpret the certificate as the
requested view exactly when the requested kind equals the runtime
discriminant, and yield nothing otherwise. -/
def Cert.cast {T : Type} (c : Cert) (kind : CertKind) (mk : RawCert → T) :
    Option T :=
  if kind = c.raw.cert_type then some (mk c.raw) else none

/-- From `Cert::as_hostkey` in `src/cert.rs`. -/
def Cert.as_hostkey (c : Cert) : Option CertHostkey :=
  c.cast .hostkeyLibssh2 CertHostkey.mk

/-- From `Cert::as_x509` in `src/cert.rs`. -/
def Cert.as_x509 (c : Cert) : Option CertX509 :=
  c.cast .x509 CertX509.mk

/-- Is the byte a UTF-8 continuation byte (`10xxxxxx`)? -/
def isContByte (b : Nat) : Bool := 128 ≤ b && b < 192

/-- Modelled from the spec: the two-byte tail of the UTF-8 decoder
backing `str::from_utf8` (not part of this repository): one continuation
byte, rejecting overlong forms below `0x80`. -/
def utf8DecodeTail2 (b : Nat) : List Nat → Option (Nat × List Nat)
  | b1 :: r =>
    if isContByte b1 then
      if 128 ≤ (b - 192) * 64 + (b1 - 128) then
        some ((b - 192) * 64 + (b1 - 128), r)
      else none
    else none
  | [] => none

/-- Modelled from the spec: the three-byte tail of the UTF-8 decoder —
two continuation bytes, rejecting overlong forms below `0x800` and the
surrogate range. -/
def utf8DecodeTail3 (b : Nat) : List Nat → Option (Nat × List Nat)
  | b1 :: b2 :: r =>
    if isContByte b1 && isContByte b2 then
      if 2048 ≤ (b - 224) * 4096 + (b1 - 128) * 64 + (b2 - 128) &&
          !(55296 ≤ (b - 224) * 4096 + (b1 - 128) * 64 + (b2 - 128) &&
            (b - 224) * 4096 + (b1 - 128) * 64 + (b2 - 128) < 57344) then
        some ((b - 224) * 4096 + (b1 - 128) * 64 + (b2 - 128), r)
      else none
    else none
  | _ => none

/-- Modelled from the spec: the four-byte tail of the UTF-8 decoder —
three continuation bytes, rejecting overlong forms below `0x10000` and
values beyond `0x10FFFF`. -/
def utf8DecodeTail4 (b : Nat) : List Nat → Option (Nat × List Nat)
  | b1 :: b2 :: b3 :: r =>
    if isContByte b1 && isContByte b2 && isContByte b3 then
      if 65536 ≤ (b - 240) * 262144 + (b1 - 128) * 4096 +
            (b2 - 128) * 64 + (b3 - 128) &&
          (b - 240) * 262144 + (b1 - 128) * 4096 +
            (b2 - 128) * 64 + (b3 - 128) < 1114112 then
        some ((b - 240) * 262144 + (b1 - 128) * 4096 +
          (b2 - 128) * 64 + (b3 - 128), r)
      else none
    else none
  | _ => none

/-- Modelled from the spec: one step of the UTF-8 decoder backing
`str::from_utf8`, which is not part of this repository.  Decodes one
scalar value from the front of the byte list, rejecting stray
continuation bytes, truncated sequences, overlong forms, surrogates and
values beyond `0x10FFFF`. -/
def utf8DecodeOne : List Nat → Option (Nat × List Nat)
  | [] => none
  | b :: rest =>
    if b < 128 then some (b, rest)
    else if b < 192 then none
    else if b < 224 then utf8DecodeTail2 b rest
    else if b < 240 then utf8DecodeTail3 b rest
    else if b < 248 then utf8DecodeTail4 b rest
    else none

/-- Modelled from the spec: the full UTF-8 decoder, fuel-driven (one unit
of fuel per decoded character). -/
def utf8DecodePoints : Nat → List Nat → Option (List Nat)
  | _, [] => some []
  | 0, _ :: _ => none
  | fuel + 1, b :: rest =>
    (utf8DecodeOne (b :: rest)).bind (fun p =>
      (utf8DecodePoints fuel p.2).map (fun vs => p.1 :: vs))

/-- Modelled from the spec: decode a byte sequence to the list of Unicode
scalar values it encodes, or `none` if it is not valid UTF-8. -/
def utf8Decode (bytes : List Nat) : Option (List Nat) :=
  utf8DecodePoints bytes.length bytes

/-- The standard UTF-8 encoding of one Unicode scalar value. -/
def encodePoint (v : Nat) : List Nat :=
  if v < 128 then [v]
  else if v < 2048 then [192 + v / 64, 128 + v % 64]
  else if v < 65536 then [224 + v / 4096, 128 + v / 64 % 64, 128 + v % 64]
  else [240 + v / 262144, 128 + v / 4096 % 64, 128 + v / 64 % 64, 128 + v % 64]

/-- The UTF-8 encoding of a list of scalar values. -/
def encodePoints (vs : List Nat) : List Nat := vs.flatMap encodePoint

/-- The UTF-8 encoding of a string. -/
def utf8EncodeStr (s : String) : List Nat :=
  s.data.flatMap (fun ch => encodePoint ch.toNat)

/-- Decode a byte sequence into a string when it is valid UTF-8, the
embedding of `str::from_utf8(bytes).ok()`. -/
def bytesToStr (bytes : List Nat) : Option String :=
  (utf8Decode bytes).map (fun vs => ⟨vs.map Char.ofNat⟩)

/-- The raw data behind a `ConfigEntry` of `src/config.rs`: the name and
value byte sequences exposed by `name_bytes` and `value_bytes`. -/
structure RawEntry where
  nameBytes : List Nat
  valueBytes : List Nat
deriving DecidableEq

/-- From `ConfigEntry::name` in `src/config.rs`:
`str::from_utf8(self.name_bytes()).ok()`. -/
def RawEntry.name (e : RawEntry) : Option String := bytesToStr e.nameBytes

/-- From `ConfigEntry::value` in `src/config.rs`:
`str::from_utf8(self.value_bytes()).ok()`. -/
def RawEntry.value (e : RawEntry) : Option String := bytesToStr e.valueBytes

/-- Base-10 value of a digit-character sequence, most significant first. -/
def digitsVal (l : List Char) : Nat :=
  l.foldl (fun a ch => a * 10 + digVal ch) 0

/-- Unfolding equation of `entryLookup` on a nonempty table. -/
theorem entryLookup_cons (e : String × String) (rest : List (String × String))
    (n : String) :
    entryLookup (e :: rest) n =
      match entryLookup rest n with
      | some w => some w
      | none => if e.1 = n then some e.2 else none := rfl

/-- A table lookup misses exactly when no entry carries the name. -/
theorem entryLookup_none_iff (es : List (String × String)) (n : String) :
    entryLookup es n = none ↔ ∀ e ∈ es, e.1 ≠ n := by
  induction es with
  | nil => simp [entryLookup]
  | cons e rest ih =>
    rw [entryLookup_cons]
    cases hr : entryLookup rest n with
    | some w =>
      constructor
      · intro hco; exact absurd hco (by simp)
      · intro hall
        have hrest : entryLookup rest n = none :=
          ih.mpr (fun x hx => hall x (List.mem_cons_of_mem e hx))
        rw [hr] at hrest
        exact absurd hrest (by simp)
    | none =>
      by_cases he : e.1 = n
      · rw [if_pos he]
        constructor
        · intro hco; exact absurd hco (by simp)
        · intro hall; exact absurd he (hall e (List.mem_cons_self e rest))
      · rw [if_neg he]
        constructor
        · intro _ x hx
          rcases List.mem_cons.mp hx with hx | hx
          · rw [hx]; exact he
          · exact (ih.mp hr) x hx
        · intro _; rfl

/-- A table lookup over a concatenation prefers the later block. -/
theorem entryLookup_append (xs ys : List (String × String)) (n : String) :
    entryLookup (xs ++ ys) n =
      match entryLookup ys n with
      | some w => some w
      | none => entryLookup xs n := by
  induction xs with
  | nil =>
    cases hy : entryLookup ys n <;> simp [entryLookup, hy]
  | cons x xs ih =>
    rw [List.cons_append, entryLookup_cons, ih, entryLookup_cons]
    cases hy : entryLookup ys n with
    | some w => rfl
    | none => cases hx : entryLookup xs n <;> rfl

/-- A table lookup is the first match of the reversed table. -/
theorem entryLookup_eq_find_reverse (es : List (String × String)) (n : String) :
    entryLookup es n = (es.reverse.find? (fun e => e.1 = n)).map (fun e => e.2) := by
  induction es with
  | nil => simp [entryLookup]
  | cons e rest ih =>
    rw [entryLookup_cons, List.reverse_cons, List.find?_append, ih]
    cases hr : rest.reverse.find? (fun e => e.1 = n) with
    | some w => simp
    | none =>
      by_cases he : e.1 = n
      · simp [he]
      · simp [he]

/-- Resolution over a source list yields nothing exactly when the seed is
empty and no source defines the name. -/
theorem resolveAux_none_iff (n : String) (ss : List Source) :
    ∀ best, resolveAux n best ss = none ↔
      (best = none ∧ ∀ s ∈ ss, entryLookup s.entries n = none) := by
  induction ss with
  | nil => intro best; simp [resolveAux]
  | cons s ss ih =>
    intro best
    simp only [resolveAux, ih, List.mem_cons]
    constructor
    · rintro ⟨hstep, hrest⟩
      unfold resolveStep at hstep
      cases hl : entryLookup s.entries n with
      | some v =>
        rw [hl] at hstep
        cases best with
        | none => exact absurd hstep (by simp)
        | some p =>
          obtain ⟨w, bl⟩ := p
          by_cases hc : bl.rank ≤ s.level.rank <;> simp [hc] at hstep
      | none =>
        rw [hl] at hstep
        refine ⟨hstep, ?_⟩
        intro x hx
        rcases hx with hx | hx
        · rw [hx]; exact hl
        · exact hrest x hx
    · rintro ⟨hbest, hall⟩
      have hl : entryLookup s.entries n = none := hall s (Or.inl rfl)
      refine ⟨?_, fun x hx => hall x (Or.inr hx)⟩
      unfold resolveStep
      rw [hl, hbest]

/-- The store misses a name exactly when every source does. -/
theorem getRaw_none_iff (c : Config) (n : String) :
    c.getRaw n = none ↔ ∀ s ∈ c.sources, entryLookup s.entries n = none := by
  simp [Config.getRaw, resolveAux_none_iff]

/-- Resolution keeps a candidate that outranks every remaining source. -/
theorem resolveAux_keep (n : String) (ss : List Source) :
    ∀ w bl, (∀ s ∈ ss, s.level.rank < bl.rank) →
      resolveAux n (some (w, bl)) ss = some (w, bl) := by
  induction ss with
  | nil => intro w bl _; rfl
  | cons s ss ih =>
    intro w bl hlt
    simp only [resolveAux]
    have hstep : resolveStep n (some (w, bl)) s = some (w, bl) := by
      unfold resolveStep
      cases hl : entryLookup s.entries n with
      | none => rfl
      | some v =>
        have : ¬ bl.rank ≤ s.level.rank :=
          Nat.not_le.mpr (hlt s (List.mem_cons_self s ss))
        simp [this]
    rw [hstep]
    exact ih w bl (fun x hx => hlt x (List.mem_cons_of_mem s hx))

/-- Resolution returns the entry of a source that every source can at most
match in rank and that strictly outranks every later source. -/
theorem resolveAux_winner (n : String) (ss : List Source) :
    ∀ (best : Option (String × ConfigLevel)) (i : Nat) (s : Source) (v : String),
    ss[i]? = some s →
    entryLookup s.entries n = some v →
    (∀ (j : Nat) (s2 : Source), ss[j]? = some s2 → s2.level.rank ≤ s.level.rank) →
    (∀ (j : Nat) (s2 : Source), ss[j]? = some s2 → i < j → s2.level.rank < s.level.rank) →
    (∀ (w : String) (bl : ConfigLevel), best = some (w, bl) → bl.rank ≤ s.level.rank) →
    resolveAux n best ss = some (v, s.level) := by
  induction ss with
  | nil => intro best i s v hi; simp at hi
  | cons s0 tail ih =>
    intro best i s v hi hv hle hgt hbest
    cases i with
    | zero =>
      rw [List.getElem?_cons_zero] at hi
      injection hi with hi
      subst hi
      simp only [resolveAux]
      have hstep : resolveStep n best s0 = some (v, s0.level) := by
        cases best with
        | none => simp [resolveStep, hv]
        | some p =>
          obtain ⟨w, bl⟩ := p
          simp only [resolveStep, hv]
          rw [if_pos (hbest w bl rfl)]
      rw [hstep]
      exact resolveAux_keep n tail v s0.level (by
        intro x hx
        obtain ⟨j, hj⟩ := List.getElem_of_mem hx
        exact hgt (j + 1) x (by rw [List.getElem?_cons_succ]; exact hj.2 ▸ (List.getElem?_eq_getElem hj.1)) (Nat.succ_pos j))
    | succ i0 =>
      rw [List.getElem?_cons_succ] at hi
      simp only [resolveAux]
      apply ih (resolveStep n best s0) i0 s v hi hv
      · intro j s2 hj
        exact hle (j + 1) s2 (by rw [List.getElem?_cons_succ]; exact hj)
      · intro j s2 hj hlt2
        exact hgt (j + 1) s2 (by rw [List.getElem?_cons_succ]; exact hj)
          (Nat.succ_lt_succ hlt2)
      · intro w bl hb
        cases hl : entryLookup s0.entries n with
        | none =>
          simp only [resolveStep, hl] at hb
          exact hbest w bl hb
        | some v0 =>
          simp only [resolveStep, hl] at hb
          have h0le : s0.level.rank ≤ s.level.rank :=
            hle 0 s0 List.getElem?_cons_zero
          cases best with
          | none =>
            simp only [Option.some.injEq, Prod.mk.injEq] at hb
            rw [← hb.2]
            exact h0le
          | some p =>
            obtain ⟨w0, bl0⟩ := p
            by_cases hc : bl0.rank ≤ s0.level.rank
            · simp only [if_pos hc, Option.some.injEq, Prod.mk.injEq] at hb
              rw [← hb.2]
              exact h0le
            · simp only [if_neg hc, Option.some.injEq, Prod.mk.injEq] at hb
              rw [← hb.2]
              exact hbest w0 bl0 rfl

/-- The write-target scan never loses an already-found candidate. -/
theorem topIdxAux_some_ne_none (ss : List Source) :
    ∀ (idx : Nat) (b : Nat × Nat), topIdxAux idx (some b) ss ≠ none := by
  induction ss with
  | nil => intro idx b h; exact absurd h (by simp [topIdxAux])
  | cons s tail ih =>
    intro idx b
    obtain ⟨bi, br⟩ := b
    simp only [topIdxAux]
    by_cases hc : br ≤ s.level.rank
    · rw [if_pos hc]; exact ih (idx + 1) (idx, s.level.rank)
    · rw [if_neg hc]; exact ih (idx + 1) (bi, br)

/-- Full characterisation of the write-target scan: its result is either
the seed (when every source ranks strictly below it) or the position of a
source that nothing outranks and that strictly outranks everything added
after it. -/
theorem topIdxAux_spec (ss : List Source) :
    ∀ (idx : Nat) (best : Option (Nat × Nat)) (ri rr : Nat),
    topIdxAux idx best ss = some (ri, rr) →
    (best = some (ri, rr) ∧
      ∀ (j : Nat) (s2 : Source), ss[j]? = some s2 → s2.level.rank < rr) ∨
    (∃ (j : Nat) (s2 : Source), ss[j]? = some s2 ∧ ri = idx + j ∧
      rr = s2.level.rank ∧
      (∀ (j2 : Nat) (s3 : Source), ss[j2]? = some s3 → s3.level.rank ≤ rr) ∧
      (∀ (j2 : Nat) (s3 : Source), ss[j2]? = some s3 → j < j2 →
        s3.level.rank < rr) ∧
      (∀ (bi br : Nat), best = some (bi, br) → br ≤ rr)) := by
  induction ss with
  | nil =>
    intro idx best ri rr h
    exact Or.inl ⟨h, by intro j s2 hj; simp at hj⟩
  | cons s tail ih =>
    intro idx best ri rr h
    cases hb : best with
    | none =>
      rw [hb] at h
      simp only [topIdxAux] at h
      rcases ih (idx + 1) (some (idx, s.level.rank)) ri rr h with
        ⟨hbeq, htail⟩ | ⟨j, s2, hj, hri, hrr, hall, hafter, hseed⟩
      · -- the head source itself is the winner
        simp only [Option.some.injEq, Prod.mk.injEq] at hbeq
        refine Or.inr ⟨0, s, List.getElem?_cons_zero, ?_, ?_, ?_, ?_, ?_⟩
        · omega
        · rw [← hbeq.2]
        · intro j2 s3 hj2
          cases j2 with
          | zero =>
            rw [List.getElem?_cons_zero] at hj2
            injection hj2 with hj2
            rw [← hj2, ← hbeq.2]
          | succ k =>
            rw [List.getElem?_cons_succ] at hj2
            exact Nat.le_of_lt (htail k s3 hj2)
        · intro j2 s3 hj2 hpos
          cases j2 with
          | zero => exact absurd hpos (by omega)
          | succ k =>
            rw [List.getElem?_cons_succ] at hj2
            exact htail k s3 hj2
        · intro bi br hcontra; exact absurd hcontra (by simp)
      · -- the winner sits in the tail
        refine Or.inr ⟨j + 1, s2, ?_, ?_, hrr, ?_, ?_, ?_⟩
        · rw [List.getElem?_cons_succ]; exact hj
        · omega
        · intro j2 s3 hj2
          cases j2 with
          | zero =>
            rw [List.getElem?_cons_zero] at hj2
            injection hj2 with hj2
            rw [← hj2]
            exact hseed idx s.level.rank rfl
          | succ k =>
            rw [List.getElem?_cons_succ] at hj2
            exact hall k s3 hj2
        · intro j2 s3 hj2 hlt2
          cases j2 with
          | zero => exact absurd hlt2 (by omega)
          | succ k =>
            rw [List.getElem?_cons_succ] at hj2
            exact hafter k s3 hj2 (by omega)
        · intro bi br hcontra; exact absurd hcontra (by simp)
    | some p =>
      obtain ⟨bi, br⟩ := p
      rw [hb] at h
      simp only [topIdxAux] at h
      by_cases hc : br ≤ s.level.rank
      · rw [if_pos hc] at h
        rcases ih (idx + 1) (some (idx, s.level.rank)) ri rr h with
          ⟨hbeq, htail⟩ | ⟨j, s2, hj, hri, hrr, hall, hafter, hseed⟩
        · simp only [Option.some.injEq, Prod.mk.injEq] at hbeq
          refine Or.inr ⟨0, s, List.getElem?_cons_zero, ?_, ?_, ?_, ?_, ?_⟩
          · omega
          · rw [← hbeq.2]
          · intro j2 s3 hj2
            cases j2 with
            | zero =>
              rw [List.getElem?_cons_zero] at hj2
              injection hj2 with hj2
              rw [← hj2, ← hbeq.2]
            | succ k =>
              rw [List.getElem?_cons_succ] at hj2
              exact Nat.le_of_lt (htail k s3 hj2)
          · intro j2 s3 hj2 hpos
            cases j2 with
            | zero => exact absurd hpos (by omega)
            | succ k =>
              rw [List.getElem?_cons_succ] at hj2
              exact htail k s3 hj2
          · intro bi2 br2 hb2
            injection hb2 with hb2
            have : br2 = br := congrArg Prod.snd hb2.symm
            rw [this, ← hbeq.2]
            exact hc
        · refine Or.inr ⟨j + 1, s2, ?_, ?_, hrr, ?_, ?_, ?_⟩
          · rw [List.getElem?_cons_succ]; exact hj
          · omega
          · intro j2 s3 hj2
            cases j2 with
            | zero =>
              rw [List.getElem?_cons_zero] at hj2
              injection hj2 with hj2
              rw [← hj2]
              exact hseed idx s.level.rank rfl
            | succ k =>
              rw [List.getElem?_cons_succ] at hj2
              exact hall k s3 hj2
          · intro j2 s3 hj2 hlt2
            cases j2 with
            | zero => exact absurd hlt2 (by omega)
            | succ k =>
              rw [List.getElem?_cons_succ] at hj2
              exact hafter k s3 hj2 (by omega)
          · intro bi2 br2 hb2
            injection hb2 with hb2
            have : br2 = br := congrArg Prod.snd hb2.symm
            rw [this]
            exact Nat.le_trans hc (hseed idx s.level.rank rfl)
      · rw [if_neg hc] at h
        rcases ih (idx + 1) (some (bi, br)) ri rr h with
          ⟨hbeq, htail⟩ | ⟨j, s2, hj, hri, hrr, hall, hafter, hseed⟩
        · simp only [Option.some.injEq, Prod.mk.injEq] at hbeq
          refine Or.inl ⟨by rw [hbeq.1, hbeq.2], ?_⟩
          intro j2 s3 hj2
          cases j2 with
          | zero =>
            rw [List.getElem?_cons_zero] at hj2
            injection hj2 with hj2
            rw [← hj2, ← hbeq.2]
            omega
          | succ k =>
            rw [List.getElem?_cons_succ] at hj2
            exact htail k s3 hj2
        · refine Or.inr ⟨j + 1, s2, ?_, ?_, hrr, ?_, ?_, ?_⟩
          · rw [List.getElem?_cons_succ]; exact hj
          · omega
          · intro j2 s3 hj2
            cases j2 with
            | zero =>
              rw [List.getElem?_cons_zero] at hj2
              injection hj2 with hj2
              rw [← hj2]
              have hbr : br ≤ rr := hseed bi br rfl
              omega
            | succ k =>
              rw [List.getElem?_cons_succ] at hj2
              exact hall k s3 hj2
          · intro j2 s3 hj2 hlt2
            cases j2 with
            | zero => exact absurd hlt2 (by omega)
            | succ k =>
              rw [List.getElem?_cons_succ] at hj2
              exact hafter k s3 hj2 (by omega)
          · intro bi2 br2 hb2
            injection hb2 with hb2
            have : br2 = br := congrArg Prod.snd hb2.symm
            rw [this]
            exact hseed bi br rfl

/-- A nonempty store has a well-defined write target: a source that no
source outranks and that strictly outranks every source added after it. -/
theorem topIdx_spec (c : Config) (h : c.sources ≠ []) :
    ∃ (i : Nat) (s : Source), c.topIdx = some i ∧ c.sources[i]? = some s ∧
      (∀ (j : Nat) (s2 : Source), c.sources[j]? = some s2 →
        s2.level.rank ≤ s.level.rank) ∧
      (∀ (j : Nat) (s2 : Source), c.sources[j]? = some s2 → i < j →
        s2.level.rank < s.level.rank) := by
  obtain ⟨s0, tail, hc⟩ := List.exists_cons_of_ne_nil h
  have hrun : topIdxAux 0 none c.sources =
      topIdxAux 1 (some (0, s0.level.rank)) tail := by
    rw [hc]; rfl
  cases hres : topIdxAux 0 none c.sources with
  | none =>
    rw [hrun] at hres
    exact absurd hres (topIdxAux_some_ne_none tail 1 (0, s0.level.rank))
  | some p =>
    obtain ⟨ri, rr⟩ := p
    rcases topIdxAux_spec c.sources 0 none ri rr hres with
      ⟨hbeq, _⟩ | ⟨j, s2, hj, hri, hrr, hall, hafter, _⟩
    · exact absurd hbeq (by simp)
    · refine ⟨ri, s2, ?_, ?_, ?_, ?_⟩
      · simp [Config.topIdx, hres]
      · rw [show ri = j from by omega]; exact hj
      · intro j2 s3 hj2
        rw [hrr] at hall
        exact hall j2 s3 hj2
      · intro j2 s3 hj2 hlt2
        rw [hrr] at hafter
        exact hafter j2 s3 hj2 (by omega)

/-- Replacing the first entry of a name puts the new pair where the first
match of that name used to be. -/
theorem replaceFirstEntry_find (l : List (String × String)) (n v : String) :
    (∃ e ∈ l, e.1 = n) →
    (replaceFirstEntry l n v).find? (fun e => e.1 = n) = some (n, v) := by
  induction l with
  | nil => intro hx; simp at hx
  | cons e rest ih =>
    intro hx
    by_cases he : e.1 = n
    · simp only [replaceFirstEntry, if_pos he]
      rw [List.find?_cons_of_pos _ (by simp)]
    · simp only [replaceFirstEntry, if_neg he]
      rw [List.find?_cons_of_neg _ (by simpa using he)]
      apply ih
      rcases hx with ⟨x, hxm, hxn⟩
      rcases List.mem_cons.mp hxm with hxe | hxr
      · exact absurd (hxe ▸ hxn) he
      · exact ⟨x, hxr, hxn⟩

/-- After a `set` on a table, looking the name up yields the new value. -/
theorem setEntryTable_lookup (es : List (String × String)) (n v : String) :
    entryLookup (setEntryTable es n v) n = some v := by
  unfold setEntryTable
  by_cases hc : es.any (fun e => e.1 = n)
  · rw [if_pos hc, entryLookup_eq_find_reverse, List.reverse_reverse]
    have hex : ∃ e ∈ es.reverse, e.1 = n := by
      rcases List.any_eq_true.mp hc with ⟨x, hx, hpx⟩
      exact ⟨x, List.mem_reverse.mpr hx, by simpa using hpx⟩
    rw [replaceFirstEntry_find es.reverse n v hex]
    rfl
  · rw [if_neg hc, entryLookup_append]
    simp [entryLookup]

/-- A successful `setRaw` writes through the top source: the store keeps
its shape, only the top source changes, and the name now resolves to the
written value at the top source's level. -/
theorem setRaw_ok (c : Config) (h : c.sources ≠ []) (n v : String) :
    ∃ (c2 : Config) (i : Nat) (s : Source), c.topIdx = some i ∧
      c.sources[i]? = some s ∧
      c.setRaw n v = .ok c2 ∧
      c2.sources = c.sources.set i { s with entries := setEntryTable s.entries n v } ∧
      c2.getRaw n = some (v, s.level) ∧
      (∀ (j : Nat), j ≠ i → c2.sources[j]? = c.sources[j]?) ∧
      c2.sources.length = c.sources.length := by
  obtain ⟨i, s, hti, hgi, hle, hgt⟩ := topIdx_spec c h
  have hlen : i < c.sources.length := by
    rcases List.getElem?_eq_some_iff.mp hgi with ⟨hl, _⟩
    exact hl
  refine ⟨⟨c.sources.set i { s with entries := setEntryTable s.entries n v }⟩,
    i, s, hti, hgi, ?_, rfl, ?_, ?_, ?_⟩
  · simp only [Config.setRaw, hti, hgi]
  · apply resolveAux_winner n _ none i
      { s with entries := setEntryTable s.entries n v } v
    · exact List.getElem?_set_self hlen
    · exact setEntryTable_lookup s.entries n v
    · intro j s2 hj
      by_cases hji : j = i
      · rw [hji, List.getElem?_set_self hlen] at hj
        injection hj with hj
        rw [← hj]
      · rw [List.getElem?_set_ne (fun hcontra => hji hcontra.symm)] at hj
        exact hle j s2 hj
    · intro j s2 hj hij
      by_cases hji : j = i
      · omega
      · rw [List.getElem?_set_ne (fun hcontra => hji hcontra.symm)] at hj
        exact hgt j s2 hj hij
    · intro w bl hcontra; exact absurd hcontra (by simp)
  · intro j hji
    exact List.getElem?_set_ne (fun hcontra => hji hcontra.symm)
  · exact List.length_set c.sources i _

/-- The characters `0`-`9` are digits and carry their own value. -/
theorem digit_char_facts :
    ∀ d : Nat, d < 10 →
      isDigitChar (Char.ofNat (48 + d)) = true ∧
      digVal (Char.ofNat (48 + d)) = d := by decide

/-- Appending a digit multiplies the accumulated value by ten. -/
theorem digitsVal_append (l : List Char) (ch : Char) :
    digitsVal (l ++ [ch]) = 10 * digitsVal l + digVal ch := by
  rw [digitsVal, digitsVal, List.foldl_append]
  simp [List.foldl]
  omega

/-- The fuelled digit printer is correct whenever it has enough fuel:
reading its output back (most significant digit first) returns the
original number, every emitted character is a digit, and a nonzero number
prints at least one digit. -/
theorem natRevDigits_spec :
    ∀ (fuel m : Nat), m ≤ fuel →
      digitsVal (natRevDigits fuel m).reverse = m ∧
      (∀ ch ∈ natRevDigits fuel m, isDigitChar ch = true) ∧
      (m ≠ 0 → natRevDigits fuel m ≠ []) := by
  intro fuel
  induction fuel with
  | zero =>
    intro m hm
    have hz : m = 0 := by omega
    subst hz
    simp [natRevDigits, digitsVal, List.foldl]
  | succ f ih =>
    intro m hm
    cases m with
    | zero => simp [natRevDigits, digitsVal, List.foldl]
    | succ k =>
      have hdiv : (k + 1) / 10 ≤ f := by omega
      obtain ⟨ihv, ihd, _⟩ := ih ((k + 1) / 10) hdiv
      have hdf := digit_char_facts ((k + 1) % 10) (by omega)
      refine ⟨?_, ?_, ?_⟩
      · simp only [natRevDigits, List.reverse_cons]
        rw [digitsVal_append, ihv, hdf.2]
        omega
      · intro ch hch
        simp only [natRevDigits] at hch
        rcases List.mem_cons.mp hch with hh | ht
        · rw [hh]; exact hdf.1
        · exact ihd ch ht
      · intro _
        simp [natRevDigits]

/-- Parsing the decimal rendering of a natural number returns it. -/
theorem parseNatDigits_serialize (m : Nat) :
    parseNatDigits (serializeNat m).data = some m := by
  by_cases hm : m = 0
  · subst hm; decide
  · rw [serializeNat, if_neg hm]
    obtain ⟨hval, hdig, hne⟩ := natRevDigits_spec m m (Nat.le_refl m)
    rw [parseNatDigits, if_pos ?_]
    · exact congrArg some hval
    · constructor
      · simpa using hne hm
      · rw [List.all_eq_true]
        intro ch hch
        exact hdig ch (List.mem_reverse.mp hch)

/-- The structure of the decimal rendering: a digit followed by more
characters, parsing back to the original number. -/
theorem serializeNat_data (m : Nat) :
    ∃ ch rest, (serializeNat m).data = ch :: rest ∧
      parseNatDigits (ch :: rest) = some m ∧ isDigitChar ch = true := by
  have hparse := parseNatDigits_serialize m
  by_cases hm : m = 0
  · subst hm
    exact ⟨'0', [], by decide, by decide, by decide⟩
  · obtain ⟨hval, hdig, hne⟩ := natRevDigits_spec m m (Nat.le_refl m)
    have hd : (serializeNat m).data = (natRevDigits m m).reverse := by
      rw [serializeNat, if_neg hm]
    have hne2 : (natRevDigits m m).reverse ≠ [] := by simpa using hne hm
    obtain ⟨ch, rest, hcons⟩ := List.exists_cons_of_ne_nil hne2
    refine ⟨ch, rest, by rw [hd, hcons], ?_, ?_⟩
    · rw [← hcons, ← hd]; exact hparse
    · have : ch ∈ (natRevDigits m m).reverse := by rw [hcons]; exact List.mem_cons_self ch rest
      exact hdig ch (List.mem_reverse.mp this)

/-- A digit character is not the minus sign. -/
theorem digit_ne_dash (ch : Char) (h : isDigitChar ch = true) : ch ≠ '-' := by
  intro heq
  rw [heq] at h
  exact absurd h (by decide)

/-- Parsing the decimal rendering of an integer returns it. -/
theorem parseIntText_serializeInt (i : Int) :
    parseIntText (serializeInt i) = some i := by
  by_cases hneg : i < 0
  · rw [serializeInt, if_pos hneg]
    obtain ⟨ch, rest, hdata, hparse, hdig⟩ := serializeNat_data i.natAbs
    have hfull : ("-" ++ serializeNat i.natAbs).data = '-' :: ch :: rest := by
      rw [String.data_append, hdata]; rfl
    simp only [parseIntText, hfull, if_true]
    rw [hparse]
    have h1 : Int.ofNat i.natAbs = -i := by
      show ((i.natAbs : Int)) = -i
      rw [← Int.natAbs_neg i]
      exact Int.natAbs_of_nonneg (by omega)
    have hval : -(Int.ofNat i.natAbs) = i := by rw [h1, neg_neg]
    exact congrArg some hval
  · rw [serializeInt, if_neg hneg]
    obtain ⟨ch, rest, hdata, hparse, hdig⟩ := serializeNat_data i.natAbs
    simp only [parseIntText, hdata]
    rw [if_neg (digit_ne_dash ch hdig), hparse]
    have hval : Int.ofNat i.natAbs = i := by
      show ((i.natAbs : Int)) = i
      exact Int.natAbs_of_nonneg (by omega)
    exact congrArg some hval

/-- C1: for a store holding two sources at levels L1 < L2 that both define
a name, resolution returns the value of the higher-level (L2) source —
through `get_bytes`, `get_str` and `get_entry`, whose reported level is
L2 — no matter in which order the two sources were added. -/
theorem claim1_level_shadowing (s1 s2 : Source) (k v1 v2 : String) (c : Config)
    (hc : c.sources = [s1, s2] ∨ c.sources = [s2, s1])
    (hlt : s1.level.rank < s2.level.rank)
    (e1 : entryLookup s1.entries k = some v1)
    (e2 : entryLookup s2.entries k = some v2) :
    c.getRaw k = some (v2, s2.level) ∧
    c.get_bytes k = .ok v2 ∧
    c.get_str k = .ok v2 ∧
    c.get_entry k = .ok ⟨k, v2, s2.level⟩ := by
  have hmain : c.getRaw k = some (v2, s2.level) := by
    rcases hc with h | h
    · rw [Config.getRaw, h]
      simp only [resolveAux, resolveStep, e1, e2]
      rw [if_pos (Nat.le_of_lt hlt)]
    · rw [Config.getRaw, h]
      simp only [resolveAux, resolveStep, e1, e2]
      rw [if_neg (Nat.not_le.mpr hlt)]
  refine ⟨hmain, ?_, ?_, ?_⟩
  · simp [Config.get_bytes, hmain]
  · simp [Config.get_str, Config.get_bytes, hmain]
  · simp [Config.get_entry, hmain]

/-- Witness for C1 at a concrete store: a global and a local source both
defining `user.name`; the local value wins and carries the local level. -/
theorem claim1_level_shadowing_witness :
    (Config.mk [Source.mk .globalLevel [("user.name", "alice")],
                Source.mk .localLevel [("user.name", "bob")]]).getRaw "user.name"
        = some ("bob", ConfigLevel.localLevel) ∧
    (Config.mk [Source.mk .globalLevel [("user.name", "alice")],
                Source.mk .localLevel [("user.name", "bob")]]).get_bytes "user.name"
        = .ok "bob" ∧
    (Config.mk [Source.mk .globalLevel [("user.name", "alice")],
                Source.mk .localLevel [("user.name", "bob")]]).get_str "user.name"
        = .ok "bob" ∧
    (Config.mk [Source.mk .globalLevel [("user.name", "alice")],
                Source.mk .localLevel [("user.name", "bob")]]).get_entry "user.name"
        = .ok ⟨"user.name", "bob", ConfigLevel.localLevel⟩ :=
  claim1_level_shadowing
    (Source.mk .globalLevel [("user.name", "alice")])
    (Source.mk .localLevel [("user.name", "bob")])
    "user.name" "alice" "bob"
    (Config.mk [Source.mk .globalLevel [("user.name", "alice")],
                Source.mk .localLevel [("user.name", "bob")]])
    (Or.inl rfl) (by decide) (by decide) (by decide)

/-- C6: boolean decoding of a stored raw value accepts exactly the
case-insensitive tokens true/yes/on/1 (giving `true`) and false/no/off/0
(giving `false`), and fails with `typeMismatch` on every other value. -/
theorem claim6_bool_tokens (c : Config) (n v : String) (l : ConfigLevel)
    (h : c.getRaw n = some (v, l)) :
    (c.get_bool n = .ok true ↔
      (lowerStr v = "true" ∨ lowerStr v = "yes" ∨ lowerStr v = "on" ∨
        lowerStr v = "1")) ∧
    (c.get_bool n = .ok false ↔
      (lowerStr v = "false" ∨ lowerStr v = "no" ∨ lowerStr v = "off" ∨
        lowerStr v = "0")) ∧
    (c.get_bool n = .error .typeMismatch ↔
      (¬(lowerStr v = "true" ∨ lowerStr v = "yes" ∨ lowerStr v = "on" ∨
          lowerStr v = "1") ∧
       ¬(lowerStr v = "false" ∨ lowerStr v = "no" ∨ lowerStr v = "off" ∨
          lowerStr v = "0"))) := by
  by_cases h1 : lowerStr v = "true" ∨ lowerStr v = "yes" ∨ lowerStr v = "on" ∨
      lowerStr v = "1"
  · rcases h1 with he | he | he | he <;>
      simp [Config.get_bool, h, parseBool, he]
  · by_cases h2 : lowerStr v = "false" ∨ lowerStr v = "no" ∨
        lowerStr v = "off" ∨ lowerStr v = "0"
    · rcases h2 with he | he | he | he <;>
        simp [Config.get_bool, h, parseBool, he]
    · have hp : parseBool v = none := by
        simp only [parseBool]
        rw [if_neg h1, if_neg h2]
      simp [Config.get_bool, h, hp, h1, h2]

/-- Witness for C6: a stored value `YES` decodes to `true`, and the other
characterisations hold at that input. -/
theorem claim6_bool_tokens_witness :
    ((Config.mk [Source.mk .localLevel [("core.bare", "YES")]]).get_bool "core.bare"
        = .ok true ↔
      (lowerStr "YES" = "true" ∨ lowerStr "YES" = "yes" ∨ lowerStr "YES" = "on" ∨
        lowerStr "YES" = "1")) ∧
    ((Config.mk [Source.mk .localLevel [("core.bare", "YES")]]).get_bool "core.bare"
        = .ok false ↔
      (lowerStr "YES" = "false" ∨ lowerStr "YES" = "no" ∨ lowerStr "YES" = "off" ∨
        lowerStr "YES" = "0")) ∧
    ((Config.mk [Source.mk .localLevel [("core.bare", "YES")]]).get_bool "core.bare"
        = .error .typeMismatch ↔
      (¬(lowerStr "YES" = "true" ∨ lowerStr "YES" = "yes" ∨ lowerStr "YES" = "on" ∨
          lowerStr "YES" = "1") ∧
       ¬(lowerStr "YES" = "false" ∨ lowerStr "YES" = "no" ∨ lowerStr "YES" = "off" ∨
          lowerStr "YES" = "0"))) :=
  claim6_bool_tokens (Config.mk [Source.mk .localLevel [("core.bare", "YES")]])
    "core.bare" "YES" ConfigLevel.localLevel (by decide)

/-- C7: 32-bit integer decoding of a stored value rejects out-of-range
base-10 text (such as `99999999999`) with `typeMismatch` instead of
truncating, and returns the exact integer for in-range text. -/
theorem claim7_i32_range (c : Config) (n v : String) (l : ConfigLevel)
    (h : c.getRaw n = some (v, l)) :
    (v = "99999999999" → c.get_i32 n = .error .typeMismatch) ∧
    (∀ i : Int, parseIntText v = some i → -2147483648 ≤ i → i < 2147483648 →
      c.get_i32 n = .ok i) ∧
    (∀ i : Int, parseIntText v = some i → (i < -2147483648 ∨ 2147483648 ≤ i) →
      c.get_i32 n = .error .typeMismatch) := by
  refine ⟨?_, ?_, ?_⟩
  · intro hv
    subst hv
    have hp : parseIntText "99999999999" = some 99999999999 := by decide
    simp only [Config.get_i32, h, hp]
    rw [if_neg (by omega)]
  · intro i hp hlo hhi
    simp only [Config.get_i32, h, hp]
    rw [if_pos ⟨hlo, hhi⟩]
  · intro i hp hout
    simp only [Config.get_i32, h, hp]
    rw [if_neg (by omega)]

/-- Witness for C7: the out-of-range stored text `99999999999` makes
`get_i32` fail with `typeMismatch`. -/
theorem claim7_i32_range_witness :
    (Config.mk [Source.mk .localLevel [("pack.limit", "99999999999")]]).get_i32
      "pack.limit" = .error .typeMismatch :=
  (claim7_i32_range
    (Config.mk [Source.mk .localLevel [("pack.limit", "99999999999")]])
    "pack.limit" "99999999999" ConfigLevel.localLevel (by decide)).1 rfl

/-- C3: on a store with at least one source, each typed setter followed by
the matching typed getter returns the value just written. -/
theorem claim3_roundtrip (c : Config) (h : c.sources ≠ []) (n : String)
    (b : Bool) (i : Int)
    (hi : -9223372036854775808 ≤ i ∧ i < 9223372036854775808) (s : String) :
    (∃ c2, c.set_bool n b = .ok c2 ∧ c2.get_bool n = .ok b) ∧
    (∃ c2, c.set_i64 n i = .ok c2 ∧ c2.get_i64 n = .ok i) ∧
    (∃ c2, c.set_str n s = .ok c2 ∧ c2.get_str n = .ok s) := by
  refine ⟨?_, ?_, ?_⟩
  · obtain ⟨c2, i0, s0, _, _, hset, _, hraw, _, _⟩ :=
      setRaw_ok c h n (serializeBool b)
    refine ⟨c2, hset, ?_⟩
    have hp : parseBool (serializeBool b) = some b := by cases b <;> decide
    simp only [Config.get_bool, hraw, hp]
  · obtain ⟨c2, i0, s0, _, _, hset, _, hraw, _, _⟩ :=
      setRaw_ok c h n (serializeInt i)
    refine ⟨c2, hset, ?_⟩
    simp only [Config.get_i64, hraw, parseIntText_serializeInt]
    rw [if_pos hi]
  · obtain ⟨c2, i0, s0, _, _, hset, _, hraw, _, _⟩ := setRaw_ok c h n s
    refine ⟨c2, hset, ?_⟩
    simp only [Config.get_str, Config.get_bytes, hraw]

/-- Witness for C3 at a concrete one-source store with `true`, `42` and
`"x"`. -/
theorem claim3_roundtrip_witness :
    (∃ c2, (Config.mk [Source.mk .localLevel []]).set_bool "a.b" true = .ok c2 ∧
      c2.get_bool "a.b" = .ok true) ∧
    (∃ c2, (Config.mk [Source.mk .localLevel []]).set_i64 "a.c" 42 = .ok c2 ∧
      c2.get_i64 "a.c" = .ok 42) ∧
    (∃ c2, (Config.mk [Source.mk .localLevel []]).set_str "a.d" "x" = .ok c2 ∧
      c2.get_str "a.d" = .ok "x") := by
  have h := claim3_roundtrip (Config.mk [Source.mk .localLevel []])
    (by decide) "a.b" true 42 (by decide) "x"
  obtain ⟨h1, _, _⟩ := h
  have h2 := claim3_roundtrip (Config.mk [Source.mk .localLevel []])
    (by decide) "a.c" true 42 (by decide) "x"
  have h3 := claim3_roundtrip (Config.mk [Source.mk .localLevel []])
    (by decide) "a.d" true 42 (by decide) "x"
  exact ⟨h1, h2.2.1, h3.2.2⟩

/-- A name is collected by `Config.names` exactly when some source entry
carries it. -/
theorem names_spec (c : Config) (n : String) :
    n ∈ c.names ↔ ∃ s ∈ c.sources, ∃ e ∈ s.entries, e.1 = n := by
  unfold Config.names
  rw [List.mem_dedup, List.mem_flatMap]
  constructor
  · rintro ⟨s, hs, hn⟩
    obtain ⟨e, he, hen⟩ := List.mem_map.mp hn
    exact ⟨s, hs, e, he, hen⟩
  · rintro ⟨s, hs, e, he, hen⟩
    exact ⟨s, hs, List.mem_map.mpr ⟨e, he, hen⟩⟩

/-- Scanning the snapshot table for a resolvable name finds its resolved
pair, provided the name is listed. -/
theorem snapFind_filterMap_mem (c : Config) (n : String)
    (p : String × ConfigLevel) (hg : c.getRaw n = some p) :
    ∀ ns : List String, n ∈ ns →
      (ns.filterMap (fun m => (c.getRaw m).map (fun q => (m, q.1, q.2)))).find?
        (fun e => e.1 = n) = some (n, p.1, p.2) := by
  intro ns
  induction ns with
  | nil => intro hmem; simp at hmem
  | cons m ms ih =>
    intro hmem
    by_cases hmn : m = n
    · subst hmn
      rw [List.filterMap_cons]
      simp only [hg, Option.map]
      rw [List.find?_cons_of_pos _ (by simp)]
    · rw [List.filterMap_cons]
      have hmem2 : n ∈ ms := by
        rcases List.mem_cons.mp hmem with hx | hx
        · exact absurd hx.symm hmn
        · exact hx
      cases hm : c.getRaw m with
      | none => simp only [Option.map]; exact ih hmem2
      | some q =>
        simp only [Option.map]
        rw [List.find?_cons_of_neg _ (by simpa using hmn)]
        exact ih hmem2

/-- Scanning the snapshot table for an unlisted name finds nothing. -/
theorem snapFind_filterMap_not_mem (c : Config) (n : String) :
    ∀ ns : List String, n ∉ ns →
      (ns.filterMap (fun m => (c.getRaw m).map (fun q => (m, q.1, q.2)))).find?
        (fun e => e.1 = n) = none := by
  intro ns
  induction ns with
  | nil => intro _; rfl
  | cons m ms ih =>
    intro hmem
    have hmn : m ≠ n := fun hx => hmem (hx ▸ List.mem_cons_self m ms)
    have hms : n ∉ ms := fun hx => hmem (List.mem_cons_of_mem m hx)
    rw [List.filterMap_cons]
    cases hm : c.getRaw m with
    | none => simp only [Option.map]; exact ih hms
    | some q =>
      simp only [Option.map]
      rw [List.find?_cons_of_neg _ (by simpa using hmn)]
      exact ih hms

/-- Reading any name from the snapshot gives exactly what resolution on
the originating store gave when the snapshot was created. -/
theorem snapshot_find_eq_getRaw (c : Config) (n : String) :
    snapshotFind c.snapshot n = c.getRaw n := by
  cases hg : c.getRaw n with
  | some p =>
    have hmem : n ∈ c.names := by
      rw [names_spec]
      have hne : ¬ (∀ s ∈ c.sources, entryLookup s.entries n = none) := by
        intro hall
        rw [← getRaw_none_iff] at hall
        rw [hg] at hall
        exact absurd hall (by simp)
      push_neg at hne
      obtain ⟨s, hs, hlook⟩ := hne
      have hne2 : ¬ (∀ e ∈ s.entries, e.1 ≠ n) := by
        intro hall2
        exact hlook ((entryLookup_none_iff s.entries n).mpr hall2)
      push_neg at hne2
      obtain ⟨e, he, hen⟩ := hne2
      exact ⟨s, hs, e, he, hen⟩
    unfold snapshotFind Config.snapshot
    rw [snapFind_filterMap_mem c n p hg c.names hmem]
    simp
  | none =>
    have hmem : n ∉ c.names := by
      intro hmem
      obtain ⟨s, hs, e, he, hen⟩ := (names_spec c n).mp hmem
      have hnone := (getRaw_none_iff c n).mp hg s hs
      exact absurd hen (((entryLookup_none_iff s.entries n).mp hnone) e he)
    unfold snapshotFind Config.snapshot
    rw [snapFind_filterMap_not_mem c n c.names hmem]
    rfl

/-- C2: a snapshot taken before a subsequent `set` is unaffected by it —
every name read through the snapshot still answers with the value the
store resolved at creation time, while the live store produced by the
`set` already resolves the written name to the new value. -/
theorem claim2_snapshot_isolation (c c2 : Config) (k v : String)
    (hset : c.set_str k v = .ok c2) :
    (∀ n, snapshotFind c.snapshot n = c.getRaw n) ∧
    (∃ l, c2.getRaw k = some (v, l)) := by
  refine ⟨fun n => snapshot_find_eq_getRaw c n, ?_⟩
  have hne : c.sources ≠ [] := by
    intro hnil
    have : c.topIdx = none := by
      unfold Config.topIdx
      rw [hnil]
      rfl
    unfold Config.set_str Config.setRaw at hset
    rw [this] at hset
    exact absurd hset (by simp)
  obtain ⟨c2a, i0, s0, _, _, hset2, _, hraw, _, _⟩ := setRaw_ok c hne k v
  have hca : c.set_str k v = .ok c2a := hset2
  rw [hset] at hca
  injection hca with heq
  rw [heq]
  exact ⟨s0.level, hraw⟩

/-- Witness for C2: a snapshot of a one-source store keeps answering the
old value after the live store is updated. -/
theorem claim2_snapshot_isolation_witness :
    (∀ n, snapshotFind (Config.mk [Source.mk .localLevel [("a.b", "old")]]).snapshot n
      = (Config.mk [Source.mk .localLevel [("a.b", "old")]]).getRaw n) ∧
    (∃ l, (Config.mk [Source.mk .localLevel [("a.b", "new")]]).getRaw "a.b"
      = some ("new", l)) :=
  claim2_snapshot_isolation
    (Config.mk [Source.mk .localLevel [("a.b", "old")]])
    (Config.mk [Source.mk .localLevel [("a.b", "new")]])
    "a.b" "new" (by rfl)

/-- C5: on a store with zero sources every write operation fails with
`noWritableSource`; on a nonempty store a write targets exactly the single
highest-priority source — the one no source outranks and that strictly
outranks every source added after it — leaving all other sources
untouched. -/
theorem claim5_zero_sources_and_target (n v : String) (b : Bool) (i : Int) :
    ((Config.mk []).set_bool n b = .error .noWritableSource) ∧
    ((Config.mk []).set_i32 n i = .error .noWritableSource) ∧
    ((Config.mk []).set_i64 n i = .error .noWritableSource) ∧
    ((Config.mk []).set_str n v = .error .noWritableSource) ∧
    ((Config.mk []).remove n = .error .noWritableSource) ∧
    (∀ c : Config, c.sources ≠ [] →
      ∃ (idx : Nat) (s : Source), c.topIdx = some idx ∧
        c.sources[idx]? = some s ∧
        (∀ (j : Nat) (s2 : Source), c.sources[j]? = some s2 →
          s2.level.rank ≤ s.level.rank) ∧
        (∀ (j : Nat) (s2 : Source), c.sources[j]? = some s2 → idx < j →
          s2.level.rank < s.level.rank) ∧
        ∃ c2, c.setRaw n v = .ok c2 ∧
          c2.sources.length = c.sources.length ∧
          (∀ (j : Nat), j ≠ idx → c2.sources[j]? = c.sources[j]?) ∧
          c2.sources[idx]? =
            some { s with entries := setEntryTable s.entries n v }) := by
  refine ⟨rfl, rfl, rfl, rfl, rfl, ?_⟩
  intro c hne
  obtain ⟨c2, idx, s, hti, hgi, hset, hsrc, _, hframe, hlen⟩ :=
    setRaw_ok c hne n v
  obtain ⟨idx2, s2, hti2, hgi2, hle2, hgt2⟩ := topIdx_spec c hne
  have hidx : idx2 = idx := by
    rw [hti] at hti2
    injection hti2 with h2
    exact h2.symm
  rw [hidx] at hgi2 hgt2
  have hs : s2 = s := by
    rw [hgi] at hgi2
    injection hgi2 with h2
    exact h2.symm
  rw [hs] at hle2 hgt2
  refine ⟨idx, s, hti, hgi, hle2, hgt2, c2, hset, hlen, hframe, ?_⟩
  rw [hsrc]
  have hlt : idx < c.sources.length := by
    rcases List.getElem?_eq_some_iff.mp hgi with ⟨hl, _⟩
    exact hl
  exact List.getElem?_set_self hlt

/-- Witness for C5: the empty-store failures at concrete arguments and
the write target of a concrete two-source store. -/
theorem claim5_zero_sources_and_target_witness :
    ((Config.mk []).set_bool "a.b" true = .error .noWritableSource) ∧
    (∃ (idx : Nat) (s : Source),
      (Config.mk [Source.mk .globalLevel [], Source.mk .localLevel []]).topIdx
        = some idx ∧
      (Config.mk [Source.mk .globalLevel [], Source.mk .localLevel []]).sources[idx]?
        = some s ∧
      (∀ (j : Nat) (s2 : Source),
        (Config.mk [Source.mk .globalLevel [], Source.mk .localLevel []]).sources[j]?
          = some s2 → s2.level.rank ≤ s.level.rank) ∧
      (∀ (j : Nat) (s2 : Source),
        (Config.mk [Source.mk .globalLevel [], Source.mk .localLevel []]).sources[j]?
          = some s2 → idx < j → s2.level.rank < s.level.rank) ∧
      ∃ c2, (Config.mk [Source.mk .globalLevel [], Source.mk .localLevel []]).setRaw
          "a.b" "x" = .ok c2 ∧
        c2.sources.length =
          (Config.mk [Source.mk .globalLevel [], Source.mk .localLevel []]).sources.length ∧
        (∀ (j : Nat), j ≠ idx → c2.sources[j]? =
          (Config.mk [Source.mk .globalLevel [], Source.mk .localLevel []]).sources[j]?) ∧
        c2.sources[idx]? =
          some { Source.mk .localLevel [] with
                  entries := setEntryTable (Source.mk .localLevel []).entries "a.b" "x" }) := by
  have h := claim5_zero_sources_and_target "a.b" "x" true 0
  refine ⟨h.1, ?_⟩
  obtain ⟨idx, s, hti, hgi, hle, hgt, rest⟩ := h.2.2.2.2.2
    (Config.mk [Source.mk .globalLevel [], Source.mk .localLevel []]) (by decide)
  have hidx : idx = 1 := by
    have : (Config.mk [Source.mk .globalLevel [], Source.mk .localLevel []]).topIdx
        = some 1 := by decide
    rw [this] at hti
    injection hti with h2
    exact h2.symm
  subst hidx
  have hs : s = Source.mk .localLevel [] := by
    have : (Config.mk [Source.mk .globalLevel [],
        Source.mk .localLevel []]).sources[1]? = some (Source.mk .localLevel []) := by decide
    rw [this] at hgi
    injection hgi with h2
    exact h2.symm
  subst hs
  exact ⟨1, Source.mk .localLevel [], hti, hgi, hle, hgt, rest⟩

/-- Updating a position whose old and new elements are both rejected by
the filter leaves the filtered list unchanged. -/
theorem filter_set_eq {α : Type} (p : α → Bool) :
    ∀ (l : List α) (i : Nat) (x : α),
      (∀ y, l[i]? = some y → p y = false) → p x = false →
      (l.set i x).filter p = l.filter p := by
  intro l
  induction l with
  | nil => intro i x _ _; rfl
  | cons a as ih =>
    intro i x hold hnew
    cases i with
    | zero =>
      have hpa : p a = false := hold a List.getElem?_cons_zero
      simp [List.set_cons_zero, List.filter_cons, hpa, hnew]
    | succ j =>
      have hold2 : ∀ y, as[j]? = some y → p y = false := by
        intro y hy
        exact hold y (by rw [List.getElem?_cons_succ]; exact hy)
      simp only [List.set_cons_succ, List.filter_cons]
      rw [ih j x hold2 hnew]

/-- C4: `remove` fails with `notFound` when the highest-priority source
does not define the name; when it succeeds it rewrites only the
highest-priority source (dropping every entry of that name there), every
other source is untouched, the store afterwards misses the name whenever
no other source defines it, and `open_level` at any other level is
unchanged. -/
theorem claim4_remove_top_only (c : Config) (n : String) :
    (∀ (i : Nat) (s : Source), c.topIdx = some i → c.sources[i]? = some s →
      s.entries.any (fun e => e.1 = n) = false →
      c.remove n = .error .notFound) ∧
    (∀ c2, c.remove n = .ok c2 →
      ∃ (i : Nat) (s : Source), c.topIdx = some i ∧ c.sources[i]? = some s ∧
        c2.sources = c.sources.set i
          { s with entries := s.entries.filter (fun e => ¬(e.1 = n)) } ∧
        (∀ (j : Nat), j ≠ i → c2.sources[j]? = c.sources[j]?) ∧
        ((∀ (j : Nat) (s2 : Source), j ≠ i → c.sources[j]? = some s2 →
            entryLookup s2.entries n = none) →
          c2.get_bytes n = .error .notFound) ∧
        (∀ l : ConfigLevel, l ≠ s.level →
          c2.open_level l = c.open_level l)) := by
  constructor
  · intro i s hti hgi hany
    simp [Config.remove, hti, hgi, hany]
  · intro c2 hrem
    cases hti : c.topIdx with
    | none =>
      simp only [Config.remove, hti] at hrem
      exact absurd hrem (by simp)
    | some i =>
      cases hgi : c.sources[i]? with
      | none =>
        simp only [Config.remove, hti, hgi] at hrem
        exact absurd hrem (by simp)
      | some s =>
        simp only [Config.remove, hti, hgi] at hrem
        by_cases hany : s.entries.any (fun e => e.1 = n) = true
        · rw [if_pos hany] at hrem
          injection hrem with hrem
          have hlt : i < c.sources.length := by
            rcases List.getElem?_eq_some_iff.mp hgi with ⟨hl, _⟩
            exact hl
          refine ⟨i, s, rfl, hgi, by rw [← hrem], ?_, ?_, ?_⟩
          · intro j hji
            rw [← hrem]
            exact List.getElem?_set_ne (fun hcontra => hji hcontra.symm)
          · intro hothers
            have hnone : c2.getRaw n = none := by
              rw [getRaw_none_iff]
              intro s2 hs2
              obtain ⟨j, hj⟩ := List.getElem?_of_mem hs2
              by_cases hji : j = i
              · subst hji
                rw [← hrem, List.getElem?_set_self hlt] at hj
                injection hj with hj
                rw [← hj]
                rw [entryLookup_none_iff]
                intro e he
                have := (List.mem_filter.mp he).2
                simpa using this
              · rw [← hrem,
                  List.getElem?_set_ne (fun hcontra => hji hcontra.symm)] at hj
                exact hothers j s2 hji hj
            simp [Config.get_bytes, hnone]
          · intro l hl
            unfold Config.open_level
            rw [← hrem]
            have hfl : (c.sources.set i
                { s with entries := s.entries.filter (fun e => ¬(e.1 = n)) }).filter
                  (fun s2 => s2.level = l) =
                c.sources.filter (fun s2 => s2.level = l) := by
              apply filter_set_eq
              · intro y hy
                rw [hgi] at hy
                injection hy with hy
                rw [← hy]
                simpa using fun hcontra => hl hcontra.symm
              · simpa using fun hcontra => hl hcontra.symm
            rw [hfl]
        · rw [if_neg hany] at hrem
          exact absurd hrem (by simp)

/-- Witness for C4 on a concrete store: removing from the local source
keeps the global entry, the store then resolves nothing for a name only
the top source had, and removing an absent name fails with notFound. -/
theorem claim4_remove_top_only_witness :
    ((Config.mk [Source.mk .globalLevel [("g.k", "1")],
        Source.mk .localLevel [("a.b", "2")]]).remove "zzz"
      = .error .notFound) ∧
    (∃ (i : Nat) (s : Source),
      (Config.mk [Source.mk .globalLevel [("g.k", "1")],
        Source.mk .localLevel [("a.b", "2")]]).topIdx = some i ∧
      (Config.mk [Source.mk .globalLevel [("g.k", "1")],
        Source.mk .localLevel [("a.b", "2")]]).sources[i]? = some s ∧
      (Config.mk [Source.mk .globalLevel [("g.k", "1")],
        Source.mk .localLevel []]).sources =
        (Config.mk [Source.mk .globalLevel [("g.k", "1")],
          Source.mk .localLevel [("a.b", "2")]]).sources.set i
          { s with entries := s.entries.filter (fun e => ¬(e.1 = "a.b")) } ∧
      (∀ (j : Nat), j ≠ i →
        (Config.mk [Source.mk .globalLevel [("g.k", "1")],
          Source.mk .localLevel []]).sources[j]? =
        (Config.mk [Source.mk .globalLevel [("g.k", "1")],
          Source.mk .localLevel [("a.b", "2")]]).sources[j]?) ∧
      ((∀ (j : Nat) (s2 : Source), j ≠ i →
          (Config.mk [Source.mk .globalLevel [("g.k", "1")],
            Source.mk .localLevel [("a.b", "2")]]).sources[j]? = some s2 →
          entryLookup s2.entries "a.b" = none) →
        (Config.mk [Source.mk .globalLevel [("g.k", "1")],
          Source.mk .localLevel []]).get_bytes "a.b" = .error .notFound) ∧
      (∀ l : ConfigLevel, l ≠ s.level →
        (Config.mk [Source.mk .globalLevel [("g.k", "1")],
          Source.mk .localLevel []]).open_level l =
        (Config.mk [Source.mk .globalLevel [("g.k", "1")],
          Source.mk .localLevel [("a.b", "2")]]).open_level l)) := by
  constructor
  · have h := (claim4_remove_top_only
      (Config.mk [Source.mk .globalLevel [("g.k", "1")],
        Source.mk .localLevel [("a.b", "2")]]) "zzz").1
    exact h 1 (Source.mk .localLevel [("a.b", "2")]) (by decide) (by decide)
      (by decide)
  · have h := (claim4_remove_top_only
      (Config.mk [Source.mk .globalLevel [("g.k", "1")],
        Source.mk .localLevel [("a.b", "2")]]) "a.b").2
    exact h (Config.mk [Source.mk .globalLevel [("g.k", "1")],
      Source.mk .localLevel []]) (by rfl)

/-- Draining an iterator yields exactly the entries it was created
over. -/
theorem drain_mk : ∀ l : List ConfigEntry, (ConfigEntries.mk l).drain = l := by
  have haux : ∀ (fuel : Nat) (l : List ConfigEntry), l.length ≤ fuel →
      drainAux fuel (ConfigEntries.mk l) = l := by
    intro fuel
    induction fuel with
    | zero =>
      intro l hl
      cases l with
      | nil => rfl
      | cons e rest => simp at hl
    | succ f ih =>
      intro l hl
      cases l with
      | nil => rfl
      | cons e rest =>
        simp only [drainAux, ConfigEntries.next]
        rw [ih rest (by simpa using Nat.le_of_succ_le_succ hl)]
  intro l
  exact haux l.length l (Nat.le_refl _)

/-- C8: the iterator from `entries (some glob)` yields exactly the entries
of the store whose name matches the glob — the glob-filtered restriction
of the full priority-then-insertion sequence, in that order — the
sequence is finite, and a step of the iterator strictly consumes it, so
an exhausted iterator yields nothing forever. -/
theorem claim8_entries_glob (c : Config) (g : String) :
    ((c.entries (some g)).drain =
      (c.entries none).drain.filter (fun e => globMatch g e.name)) ∧
    (∀ e, e ∈ (c.entries (some g)).drain ↔
      e ∈ (c.entries none).drain ∧ globMatch g e.name = true) ∧
    ((c.entries none).drain = c.allEntries) ∧
    ((c.entries (some g)).drain.length ≤ (c.entries none).drain.length) ∧
    (∀ it : ConfigEntries, it.remaining = [] → it.next = none) ∧
    (∀ (it it2 : ConfigEntries) (e : ConfigEntry), it.next = some (e, it2) →
      it2.remaining.length < it.remaining.length) := by
  have h1 : (c.entries (some g)).drain = c.allEntries.filter
      (fun e => globMatch g e.name) := by
    rw [Config.entries, drain_mk]
    rfl
  have h2 : (c.entries none).drain = c.allEntries := by
    rw [Config.entries, drain_mk]
    rfl
  refine ⟨?_, ?_, h2, ?_, ?_, ?_⟩
  · rw [h1, h2]
  · intro e
    rw [h1, h2, List.mem_filter]
  · rw [h1, h2]
    exact List.length_filter_le _ _
  · intro it hit
    cases it with
    | mk l => cases hit; rfl
  · intro it it2 e hnext
    cases it with
    | mk l =>
      cases l with
      | nil => exact absurd hnext (by simp [ConfigEntries.next])
      | cons x rest =>
        simp only [ConfigEntries.next, Option.some.injEq, Prod.mk.injEq] at hnext
        rw [← hnext.2]
        simp

/-- Witness for C8 on a concrete two-source store and the glob `a.*`:
the filtered traversal, the exhausted-iterator step and the consuming
step, all at concrete inputs. -/
theorem claim8_entries_glob_witness :
    ((Config.mk [Source.mk .globalLevel [("a.b", "1"), ("c.d", "2")],
        Source.mk .localLevel [("a.e", "3")]]).entries (some "a.*")).drain =
      ((Config.mk [Source.mk .globalLevel [("a.b", "1"), ("c.d", "2")],
        Source.mk .localLevel [("a.e", "3")]]).entries none).drain.filter
        (fun e => globMatch "a.*" e.name) ∧
    ((ConfigEntries.mk []).next = none) ∧
    (∀ (it2 : ConfigEntries) (e : ConfigEntry),
      (ConfigEntries.mk [ConfigEntry.mk "a.b" "1" .globalLevel]).next
          = some (e, it2) →
      it2.remaining.length <
        (ConfigEntries.mk [ConfigEntry.mk "a.b" "1" .globalLevel]).remaining.length) := by
  have h := claim8_entries_glob
    (Config.mk [Source.mk .globalLevel [("a.b", "1"), ("c.d", "2")],
      Source.mk .localLevel [("a.e", "3")]]) "a.*"
  refine ⟨h.1, ?_, ?_⟩
  · exact h.2.2.2.2.1 (ConfigEntries.mk []) rfl
  · intro it2 e hnext
    exact h.2.2.2.2.2 (ConfigEntries.mk [ConfigEntry.mk "a.b" "1" .globalLevel])
      it2 e hnext

/-- C9: casting a certificate to the variant that does not match its
runtime discriminant yields `none` — never an error — while casting to
the matching variant yields the view sharing the same raw data. -/
theorem claim9_cert_cast (c : Cert) :
    (c.raw.cert_type ≠ .hostkeyLibssh2 → c.as_hostkey = none) ∧
    (c.raw.cert_type ≠ .x509 → c.as_x509 = none) ∧
    (c.raw.cert_type = .hostkeyLibssh2 → c.as_hostkey = some ⟨c.raw⟩) ∧
    (c.raw.cert_type = .x509 → c.as_x509 = some ⟨c.raw⟩) := by
  refine ⟨?_, ?_, ?_, ?_⟩
  · intro h
    simp only [Cert.as_hostkey, Cert.cast]
    rw [if_neg (fun hc => h hc.symm)]
  · intro h
    simp only [Cert.as_x509, Cert.cast]
    rw [if_neg (fun hc => h hc.symm)]
  · intro h
    simp only [Cert.as_hostkey, Cert.cast]
    rw [if_pos h.symm]
  · intro h
    simp only [Cert.as_x509, Cert.cast]
    rw [if_pos h.symm]

/-- Witness for C9: an X.509 certificate casts to no hostkey view and to
the X.509 view, and symmetrically for a hostkey certificate. -/
theorem claim9_cert_cast_witness :
    (Cert.mk (RawCert.mk .x509)).as_hostkey = none ∧
    (Cert.mk (RawCert.mk .hostkeyLibssh2)).as_x509 = none ∧
    (Cert.mk (RawCert.mk .x509)).as_x509 = some ⟨RawCert.mk .x509⟩ :=
  ⟨(claim9_cert_cast (Cert.mk (RawCert.mk .x509))).1 (by decide),
   (claim9_cert_cast (Cert.mk (RawCert.mk .hostkeyLibssh2))).2.1 (by decide),
   (claim9_cert_cast (Cert.mk (RawCert.mk .x509))).2.2.2 rfl⟩

/-- The encoder never produces an empty byte sequence. -/
theorem encodePoint_ne_nil (v : Nat) : encodePoint v ≠ [] := by
  unfold encodePoint
  split_ifs <;> simp

/-- Decoding one character is sound: it returns a valid Unicode scalar
value whose standard encoding is exactly the bytes consumed. -/
theorem utf8DecodeOne_sound :
    ∀ (l : List Nat) (v : Nat) (rest : List Nat),
    utf8DecodeOne l = some (v, rest) →
    Nat.isValidChar v ∧ l = encodePoint v ++ rest := by
  intro l v rest h
  cases l with
  | nil => exact absurd h (by simp [utf8DecodeOne])
  | cons b bs =>
    simp only [utf8DecodeOne] at h
    by_cases h1 : b < 128
    · rw [if_pos h1] at h
      simp only [Option.some.injEq, Prod.mk.injEq] at h
      obtain ⟨hv, hr⟩ := h
      subst hv; subst hr
      refine ⟨Or.inl (by omega), ?_⟩
      simp [encodePoint, h1]
    · rw [if_neg h1] at h
      by_cases h2 : b < 192
      · rw [if_pos h2] at h; exact absurd h (by simp)
      · rw [if_neg h2] at h
        by_cases h3 : b < 224
        · rw [if_pos h3] at h
          cases bs with
          | nil => exact absurd h (by simp [utf8DecodeTail2])
          | cons b1 r =>
            simp only [utf8DecodeTail2] at h
            by_cases hc1 : isContByte b1 = true
            · rw [if_pos hc1] at h
              have hb1 : 128 ≤ b1 ∧ b1 < 192 := by
                simpa [isContByte] using hc1
              by_cases hrange : 128 ≤ (b - 192) * 64 + (b1 - 128)
              · rw [if_pos hrange] at h
                simp only [Option.some.injEq, Prod.mk.injEq] at h
                obtain ⟨hv, hr⟩ := h
                subst hv; subst hr
                refine ⟨Or.inl (by omega), ?_⟩
                have e1 : 192 + ((b - 192) * 64 + (b1 - 128)) / 64 = b := by
                  omega
                have e2 : 128 + ((b - 192) * 64 + (b1 - 128)) % 64 = b1 := by
                  omega
                simp only [encodePoint]
                rw [if_neg (by omega), if_pos (by omega), e1, e2]
                rfl
              · rw [if_neg hrange] at h; exact absurd h (by simp)
            · rw [if_neg hc1] at h; exact absurd h (by simp)
        · rw [if_neg h3] at h
          by_cases h4 : b < 240
          · rw [if_pos h4] at h
            cases bs with
            | nil => exact absurd h (by simp [utf8DecodeTail3])
            | cons b1 bs2 =>
              cases bs2 with
              | nil => exact absurd h (by simp [utf8DecodeTail3])
              | cons b2 r =>
                simp only [utf8DecodeTail3] at h
                by_cases hc1 : (isContByte b1 && isContByte b2) = true
                · rw [if_pos hc1] at h
                  have hb12 : (128 ≤ b1 ∧ b1 < 192) ∧ (128 ≤ b2 ∧ b2 < 192) := by
                    rcases Bool.and_eq_true_iff.mp hc1 with ⟨hx, hy⟩
                    exact ⟨by simpa [isContByte] using hx,
                      by simpa [isContByte] using hy⟩
                  by_cases hrange :
                      (2048 ≤ (b - 224) * 4096 + (b1 - 128) * 64 + (b2 - 128) &&
                        !(55296 ≤ (b - 224) * 4096 + (b1 - 128) * 64 + (b2 - 128) &&
                          (b - 224) * 4096 + (b1 - 128) * 64 + (b2 - 128) < 57344)) = true
                  · rw [if_pos hrange] at h
                    have hr2 : 2048 ≤ (b - 224) * 4096 + (b1 - 128) * 64 + (b2 - 128) ∧
                        ((b - 224) * 4096 + (b1 - 128) * 64 + (b2 - 128) < 55296 ∨
                          57344 ≤ (b - 224) * 4096 + (b1 - 128) * 64 + (b2 - 128)) := by
                      simpa using hrange
                    simp only [Option.some.injEq, Prod.mk.injEq] at h
                    obtain ⟨hv, hr⟩ := h
                    subst hv; subst hr
                    constructor
                    · by_cases hlow :
                          (b - 224) * 4096 + (b1 - 128) * 64 + (b2 - 128) < 55296
                      · exact Or.inl (by omega)
                      · refine Or.inr ⟨?_, ?_⟩
                        · have := hr2.2
                          omega
                        · omega
                    · have e1 : 224 +
                          ((b - 224) * 4096 + (b1 - 128) * 64 + (b2 - 128)) / 4096 = b := by
                        omega
                      have e2 : 128 +
                          ((b - 224) * 4096 + (b1 - 128) * 64 + (b2 - 128)) / 64 % 64 = b1 := by
                        omega
                      have e3 : 128 +
                          ((b - 224) * 4096 + (b1 - 128) * 64 + (b2 - 128)) % 64 = b2 := by
                        omega
                      simp only [encodePoint]
                      rw [if_neg (by omega), if_neg (by omega), if_pos (by omega),
                        e1, e2, e3]
                      rfl
                  · rw [if_neg hrange] at h; exact absurd h (by simp)
                · rw [if_neg hc1] at h; exact absurd h (by simp)
          · rw [if_neg h4] at h
            by_cases h5 : b < 248
            · rw [if_pos h5] at h
              cases bs with
              | nil => exact absurd h (by simp [utf8DecodeTail4])
              | cons b1 bs2 =>
                cases bs2 with
                | nil => exact absurd h (by simp [utf8DecodeTail4])
                | cons b2 bs3 =>
                  cases bs3 with
                  | nil => exact absurd h (by simp [utf8DecodeTail4])
                  | cons b3 r =>
                    simp only [utf8DecodeTail4] at h
                    by_cases hc1 :
                        (isContByte b1 && isContByte b2 && isContByte b3) = true
                    · rw [if_pos hc1] at h
                      have hb123 : ((128 ≤ b1 ∧ b1 < 192) ∧ (128 ≤ b2 ∧ b2 < 192)) ∧
                          (128 ≤ b3 ∧ b3 < 192) := by
                        rcases Bool.and_eq_true_iff.mp hc1 with ⟨hxy, hz⟩
                        rcases Bool.and_eq_true_iff.mp hxy with ⟨hx, hy⟩
                        exact ⟨⟨by simpa [isContByte] using hx,
                          by simpa [isContByte] using hy⟩,
                          by simpa [isContByte] using hz⟩
                      by_cases hrange :
                          (65536 ≤ (b - 240) * 262144 + (b1 - 128) * 4096 +
                              (b2 - 128) * 64 + (b3 - 128) &&
                            (b - 240) * 262144 + (b1 - 128) * 4096 +
                              (b2 - 128) * 64 + (b3 - 128) < 1114112) = true
                      · rw [if_pos hrange] at h
                        have hr2 : 65536 ≤ (b - 240) * 262144 + (b1 - 128) * 4096 +
                              (b2 - 128) * 64 + (b3 - 128) ∧
                            (b - 240) * 262144 + (b1 - 128) * 4096 +
                              (b2 - 128) * 64 + (b3 - 128) < 1114112 := by
                          simpa using hrange
                        simp only [Option.some.injEq, Prod.mk.injEq] at h
                        obtain ⟨hv, hr⟩ := h
                        subst hv; subst hr
                        refine ⟨Or.inr ⟨by omega, by omega⟩, ?_⟩
                        have e1 : 240 +
                            ((b - 240) * 262144 + (b1 - 128) * 4096 +
                              (b2 - 128) * 64 + (b3 - 128)) / 262144 = b := by
                          omega
                        have e2 : 128 +
                            ((b - 240) * 262144 + (b1 - 128) * 4096 +
                              (b2 - 128) * 64 + (b3 - 128)) / 4096 % 64 = b1 := by
                          omega
                        have e3 : 128 +
                            ((b - 240) * 262144 + (b1 - 128) * 4096 +
                              (b2 - 128) * 64 + (b3 - 128)) / 64 % 64 = b2 := by
                          omega
                        have e4 : 128 +
                            ((b - 240) * 262144 + (b1 - 128) * 4096 +
                              (b2 - 128) * 64 + (b3 - 128)) % 64 = b3 := by
                          omega
                        simp only [encodePoint]
                        rw [if_neg (by omega), if_neg (by omega), if_neg (by omega),
                          e1, e2, e3, e4]
                        rfl
                      · rw [if_neg hrange] at h; exact absurd h (by simp)
                    · rw [if_neg hc1] at h; exact absurd h (by simp)
            · rw [if_neg h5] at h; exact absurd h (by simp)

/-- Decoding one character is complete: the decoder consumes the standard
encoding of any valid scalar value and returns that value. -/
theorem utf8DecodeOne_complete (v : Nat) (rest : List Nat)
    (h : Nat.isValidChar v) :
    utf8DecodeOne (encodePoint v ++ rest) = some (v, rest) := by
  by_cases h1 : v < 128
  · rw [show encodePoint v = [v] from by simp [encodePoint, h1]]
    simp only [List.cons_append, List.nil_append, utf8DecodeOne]
    rw [if_pos h1]
  · by_cases h2 : v < 2048
    · have henc : encodePoint v = [192 + v / 64, 128 + v % 64] := by
        simp only [encodePoint]
        rw [if_neg h1, if_pos h2]
      rw [henc]
      simp only [List.cons_append, List.nil_append, utf8DecodeOne]
      rw [if_neg (by omega), if_neg (by omega), if_pos (by omega)]
      simp only [utf8DecodeTail2]
      rw [if_pos (by simp [isContByte]; omega)]
      rw [if_pos (by omega)]
      have hval : (192 + v / 64 - 192) * 64 + (128 + v % 64 - 128) = v := by
        omega
      rw [hval]
    · by_cases h3 : v < 65536
      · have hsur : v < 55296 ∨ 57343 < v := by
          rcases h with hlo | ⟨ha, _⟩
          · exact Or.inl hlo
          · exact Or.inr ha
        have henc : encodePoint v =
            [224 + v / 4096, 128 + v / 64 % 64, 128 + v % 64] := by
          simp only [encodePoint]
          rw [if_neg h1, if_neg h2, if_pos h3]
        rw [henc]
        simp only [List.cons_append, List.nil_append, utf8DecodeOne]
        rw [if_neg (by omega), if_neg (by omega), if_neg (by omega),
          if_pos (by omega)]
        simp only [utf8DecodeTail3]
        rw [if_pos (by simp [isContByte]; omega)]
        rw [if_pos (by simp; omega)]
        have hval : (224 + v / 4096 - 224) * 4096 +
            (128 + v / 64 % 64 - 128) * 64 + (128 + v % 64 - 128) = v := by
          omega
        rw [hval]
      · have h4 : v < 1114112 := by
          rcases h with hlo | ⟨_, hb⟩
          · omega
          · exact hb
        have henc : encodePoint v =
            [240 + v / 262144, 128 + v / 4096 % 64, 128 + v / 64 % 64,
              128 + v % 64] := by
          simp only [encodePoint]
          rw [if_neg h1, if_neg h2, if_neg h3]
        rw [henc]
        simp only [List.cons_append, List.nil_append, utf8DecodeOne]
        rw [if_neg (by omega), if_neg (by omega), if_neg (by omega),
          if_neg (by omega), if_pos (by omega)]
        simp only [utf8DecodeTail4]
        rw [if_pos (by simp [isContByte]; omega)]
        rw [if_pos (by simp; omega)]
        have hval : (240 + v / 262144 - 240) * 262144 +
            (128 + v / 4096 % 64 - 128) * 4096 +
            (128 + v / 64 % 64 - 128) * 64 + (128 + v % 64 - 128) = v := by
          omega
        rw [hval]

/-- The full decoder is complete: with enough fuel it decodes the
concatenated encodings of any valid scalar values back to them. -/
theorem utf8DecodePoints_complete :
    ∀ (vs : List Nat) (fuel : Nat), vs.length ≤ fuel →
      (∀ v ∈ vs, Nat.isValidChar v) →
      utf8DecodePoints fuel (encodePoints vs) = some vs := by
  intro vs
  induction vs with
  | nil => intro fuel _ _; simp [encodePoints, utf8DecodePoints]
  | cons v vs ih =>
    intro fuel hf hvalid
    obtain ⟨f, rfl⟩ : ∃ f, fuel = f + 1 := ⟨fuel - 1, by simp at hf; omega⟩
    have henc : encodePoints (v :: vs) = encodePoint v ++ encodePoints vs := by
      simp [encodePoints]
    obtain ⟨b, bs2, hE⟩ :=
      List.exists_cons_of_ne_nil (encodePoint_ne_nil v)
    have hbs : encodePoint v ++ encodePoints vs = b :: (bs2 ++ encodePoints vs) := by
      rw [hE]; rfl
    rw [henc, hbs]
    simp only [utf8DecodePoints]
    rw [← hbs, utf8DecodeOne_complete v (encodePoints vs)
      (hvalid v (List.mem_cons_self v vs))]
    rw [Option.some_bind]
    rw [ih f (by simp at hf; omega)
      (fun x hx => hvalid x (List.mem_cons_of_mem v hx))]
    rfl

/-- The full decoder is sound: a successful decode returns valid scalar
values whose concatenated encodings are exactly the input bytes. -/
theorem utf8DecodePoints_sound :
    ∀ (fuel : Nat) (bytes : List Nat) (vs : List Nat),
      utf8DecodePoints fuel bytes = some vs →
      (∀ v ∈ vs, Nat.isValidChar v) ∧ encodePoints vs = bytes := by
  intro fuel
  induction fuel with
  | zero =>
    intro bytes vs h
    cases bytes with
    | nil =>
      simp only [utf8DecodePoints, Option.some.injEq] at h
      subst h
      exact ⟨by simp, by simp [encodePoints]⟩
    | cons b bs => exact absurd h (by simp [utf8DecodePoints])
  | succ f ih =>
    intro bytes vs h
    cases bytes with
    | nil =>
      simp only [utf8DecodePoints, Option.some.injEq] at h
      subst h
      exact ⟨by simp, by simp [encodePoints]⟩
    | cons b bs =>
      simp only [utf8DecodePoints] at h
      cases hone : utf8DecodeOne (b :: bs) with
      | none => rw [hone] at h; exact absurd h (by simp)
      | some p =>
        obtain ⟨v, r⟩ := p
        rw [hone, Option.some_bind] at h
        cases hrest : utf8DecodePoints f r with
        | none => rw [hrest] at h; exact absurd h (by simp)
        | some vs0 =>
          rw [hrest, Option.map_some'] at h
          simp only [Option.some.injEq] at h
          subst h
          obtain ⟨hval1, henc1⟩ := utf8DecodeOne_sound (b :: bs) v r hone
          obtain ⟨hvals, hencs⟩ := ih r vs0 hrest
          constructor
          · intro x hx
            rcases List.mem_cons.mp hx with hx | hx
            · rw [hx]; exact hval1
            · exact hvals x hx
          · show encodePoint v ++ encodePoints vs0 = b :: bs
            rw [hencs, ← henc1]

/-- Each scalar value costs at least one byte to encode. -/
theorem length_le_length_encodePoints (vs : List Nat) :
    vs.length ≤ (encodePoints vs).length := by
  induction vs with
  | nil => simp [encodePoints]
  | cons v vs ih =>
    have hpos : 0 < (encodePoint v).length :=
      List.length_pos.mpr (encodePoint_ne_nil v)
    simp only [encodePoints, List.flatMap_cons, List.length_append,
      List.length_cons]
    simp only [encodePoints] at ih
    omega

/-- The byte-level decoder inverts the byte-level encoder exactly: it
succeeds precisely on the encodings of lists of valid scalar values. -/
theorem utf8Decode_iff (bytes : List Nat) (vs : List Nat) :
    utf8Decode bytes = some vs ↔
      ((∀ v ∈ vs, Nat.isValidChar v) ∧ encodePoints vs = bytes) := by
  constructor
  · intro h
    exact utf8DecodePoints_sound bytes.length bytes vs h
  · rintro ⟨hval, henc⟩
    have hlen : vs.length ≤ bytes.length := by
      rw [← henc]
      exact length_le_length_encodePoints vs
    rw [utf8Decode, ← henc]
    rw [← henc] at hlen
    exact utf8DecodePoints_complete vs (encodePoints vs).length hlen hval

/-- Every character holds a valid Unicode scalar value. -/
theorem char_toNat_valid (ch : Char) : Nat.isValidChar ch.toNat := ch.valid

/-- Packing a valid scalar value into a character preserves it. -/
theorem char_toNat_ofNat (v : Nat) (h : Nat.isValidChar v) :
    (Char.ofNat v).toNat = v := by
  rw [Char.ofNat, dif_pos h]
  rfl

/-- Encoding the characters built from valid scalar values encodes the
values themselves. -/
theorem encode_map_ofNat (vs : List Nat)
    (hval : ∀ v ∈ vs, Nat.isValidChar v) :
    (vs.map Char.ofNat).flatMap (fun ch => encodePoint ch.toNat) =
      encodePoints vs := by
  induction vs with
  | nil => rfl
  | cons v vs ih =>
    simp only [List.map_cons, List.flatMap_cons]
    rw [char_toNat_ofNat v (hval v (List.mem_cons_self v vs))]
    rw [ih (fun x hx => hval x (List.mem_cons_of_mem v hx))]
    rfl

/-- Encoding the scalar values of characters is encoding the characters. -/
theorem encodePoints_map_toNat (l : List Char) :
    encodePoints (l.map Char.toNat) =
      l.flatMap (fun ch => encodePoint ch.toNat) := by
  induction l with
  | nil => rfl
  | cons ch l ih =>
    simp only [List.map_cons, List.flatMap_cons, encodePoints] at ih ⊢
    rw [ih]

/-- The string-level decoder embedded from `str::from_utf8(..).ok()`
succeeds with `s` exactly when the bytes are the UTF-8 encoding of `s`. -/
theorem bytesToStr_iff (bytes : List Nat) (s : String) :
    bytesToStr bytes = some s ↔ utf8EncodeStr s = bytes := by
  constructor
  · intro h
    unfold bytesToStr at h
    cases hd : utf8Decode bytes with
    | none => rw [hd] at h; exact absurd h (by simp)
    | some vs =>
      rw [hd] at h
      simp only [Option.map_some' , Option.some.injEq] at h
      obtain ⟨hval, henc⟩ := (utf8Decode_iff bytes vs).mp hd
      rw [← h]
      unfold utf8EncodeStr
      rw [show (String.mk (vs.map Char.ofNat)).data = vs.map Char.ofNat from rfl]
      rw [encode_map_ofNat vs hval, henc]
  · intro h
    have hval : ∀ v ∈ s.data.map Char.toNat, Nat.isValidChar v := by
      intro v hv
      obtain ⟨ch, _, hchv⟩ := List.mem_map.mp hv
      rw [← hchv]
      exact char_toNat_valid ch
    have henc : encodePoints (s.data.map Char.toNat) = bytes := by
      rw [encodePoints_map_toNat]
      exact h
    have hdec := (utf8Decode_iff bytes (s.data.map Char.toNat)).mpr ⟨hval, henc⟩
    unfold bytesToStr
    rw [hdec]
    have hmap : ∀ l : List Char, (l.map Char.toNat).map Char.ofNat = l := by
      intro l
      induction l with
      | nil => rfl
      | cons c l ih => simp [ih, Char.ofNat_toNat]
    simp only [Option.map_some' , hmap s.data]

/-- The string-level decoder fails exactly when the bytes are not the
UTF-8 encoding of any string. -/
theorem bytesToStr_none_iff (bytes : List Nat) :
    bytesToStr bytes = none ↔ ¬ ∃ s, utf8EncodeStr s = bytes := by
  constructor
  · rintro h ⟨s, hs⟩
    have h2 := (bytesToStr_iff bytes s).mpr hs
    rw [h] at h2
    exact absurd h2 (by simp)
  · intro h
    cases hb : bytesToStr bytes with
    | none => rfl
    | some s => exact absurd ⟨s, (bytesToStr_iff bytes s).mp hb⟩ h

/-- C10: an entry accessor returns `Some` of the UTF-8 decoding of its
byte sequence exactly when those bytes are valid UTF-8 — the encoding of
some (unique) string — and `None` otherwise, for both the name and the
value accessors. -/
theorem claim10_entry_utf8 (e : RawEntry) :
    (∀ s, e.name = some s ↔ utf8EncodeStr s = e.nameBytes) ∧
    (e.name = none ↔ ¬ ∃ s, utf8EncodeStr s = e.nameBytes) ∧
    (∀ s, e.value = some s ↔ utf8EncodeStr s = e.valueBytes) ∧
    (e.value = none ↔ ¬ ∃ s, utf8EncodeStr s = e.valueBytes) :=
  ⟨fun s => bytesToStr_iff e.nameBytes s,
   bytesToStr_none_iff e.nameBytes,
   fun s => bytesToStr_iff e.valueBytes s,
   bytesToStr_none_iff e.valueBytes⟩

/-- Witness for C10: an entry with name bytes `68 69` (the encoding of
`hi`) and the invalid value byte `255`: the name accessor answers `hi`
and the value bytes encode no string, so the accessor answers nothing. -/
theorem claim10_entry_utf8_witness :
    (RawEntry.mk [104, 105] [255]).name = some "hi" ∧
    (¬ ∃ s, utf8EncodeStr s = (RawEntry.mk [104, 105] [255]).valueBytes) ∧
    (RawEntry.mk [104, 105] [255]).value = none := by
  have h := claim10_entry_utf8 (RawEntry.mk [104, 105] [255])
  refine ⟨(h.1 "hi").mpr (by decide), ?_, ?_⟩
  · exact (h.2.2.2).mp (by decide)
  · exact (h.2.2.2).mpr ((h.2.2.2).mp (by decide))

end Git2
